import Mathlib

/-!
# UserFS: an in-memory file system (`userfs.c`, `userfs.h`)

A shallow embedding of the storage engine of `userfs.c` and proofs about it.

Modelling conventions.

* A `char` is a `Nat`; a `size_t` is a `Nat` (sizes and offsets count bytes the program
  was handed or holds; the wrap-around of `size_t` is not modelled).
* A C string is a `String`; a `const char*` that may be `NULL` is an `Option String`.
* A `struct block*` is the chain it points to, a `List Block`: the `next` field of a
  block is the tail of the list and `NULL` is `[]`.
* A `struct file*` is an `Option Nat`: `none` is `NULL`, `some a` is the address `a` of a
  heap object.  `malloc` hands out a fresh address for every `struct file`.  The linked
  list `file_system` is the list of the file records, head first.  Dereferencing an
  address that is not in the list (the object was freed by `ufs_delete`) is undefined
  behaviour: the operation has no result (`none`).
* `malloc`/`realloc` may fail: every operation that allocates takes the answers of the
  allocator as an argument.
* The memory `malloc` hands out is taken to be zero, as on a heap that has not been
  used.  This matters for one field: `ufs_open` never assigns `file->data`, so the field
  holds what the memory held, and the model takes it to be `NULL`.  On a heap where the
  memory of a new `struct file` is not zero the field is no valid pointer and the
  `realloc` of `ufs_resize` has undefined behaviour: the model does not describe those
  runs, so no theorem below says that `ufs_resize` succeeds on every file.
* `printf` output is not modelled.
-/

namespace UserFS

/-! ## Constants of `userfs.h` -/

def UFS_READ : Int := 1
def UFS_WRITE : Int := 2
def UFS_CREATE : Int := 4

def BLOCK_SIZE : Nat := 256
def MAX_FILE_DESCRIPTORS : Nat := 256

/-- The value of `S_IFREG` in `<sys/stat.h>` (octal 0100000). -/
def S_IFREG : Nat := 0o100000

/-- The values `errno` is set to by the program. -/
inductive Errno where
  | EINVAL
  | ENOMEM
  | ENOENT
  | EMFILE
  | EBADF
  deriving DecidableEq, Repr

/-- Equality of results is decidable. -/
instance decEqExcept {ε α : Type} [DecidableEq ε] [DecidableEq α] : DecidableEq (Except ε α)
  | .ok a, .ok b =>
    if h : a = b then isTrue (by rw [h]) else isFalse (fun h2 => h (by cases h2; rfl))
  | .error a, .error b =>
    if h : a = b then isTrue (by rw [h]) else isFalse (fun h2 => h (by cases h2; rfl))
  | .ok _, .error _ => isFalse (fun h => by cases h)
  | .error _, .ok _ => isFalse (fun h => by cases h)

/-! ## Data model (`userfs.h`) -/

/-- The `struct block`: `data[BLOCK_SIZE]`; the `next` pointer is the tail of the chain. -/
structure Block where
  data : List Nat
  deriving DecidableEq, Repr

/-- The `struct file`.  `addr` is the address of the heap object; `next` is the tail of
the list `file_system`.  `data` is the flat buffer of `ufs_resize` (`[]` is `NULL`); an
indeterminate `data` pointer has no counterpart here. -/
structure File where
  addr : Nat
  name : String
  size : Nat
  data : List Nat
  blocks : List Block
  deriving DecidableEq, Repr

/-- The `struct file_descriptor`. -/
structure FileDescriptor where
  file : Option Nat
  offset : Nat
  mode : Int
  used : Bool
  deriving DecidableEq, Repr

/-- The global state: the list `file_system`, the array `fds` (only the indices below
`MAX_FILE_DESCRIPTORS` exist in the program, and only those are ever accessed), and the
next address `malloc` hands out for a `struct file`. -/
structure UFS where
  file_system : List File
  fds : Nat → FileDescriptor
  next_addr : Nat

/-- The state at program start: `file_system = NULL` and `fds` zero-initialised. -/
def ufs_init : UFS :=
  { file_system := []
    fds := fun _ => { file := none, offset := 0, mode := 0, used := false }
    next_addr := 1 }

/-- The `struct stat` fields the program sets; `memset` zeroes the rest. -/
structure Stat where
  st_size : Nat
  st_mode : Nat
  deriving DecidableEq, Repr

/-! ## Pointers to files -/

/-- The object at address `p`: `*p`. -/
def deref (fs : List File) (p : Nat) : Option File :=
  fs.find? (fun f => f.addr == p)

/-- The list after the assignment `*p = g (*p)`. -/
def store (fs : List File) (p : Nat) (g : File → File) : List File :=
  fs.map (fun f => if f.addr = p then g f else f)

/-- Replace slot `i` of the array `fds`. -/
def set_fd (fds : Nat → FileDescriptor) (i : Nat) (d : FileDescriptor) : Nat → FileDescriptor :=
  fun j => if j = i then d else fds j

/-! ## `find_file` and `allocate_block_chain` -/

/-- The function `find_file`: the first file of the list whose name is `name`. -/
def find_file : List File → String → Option File
  | [], _ => none
  | f :: rest, name => if f.name = name then some f else find_file rest name

/-- A block after `memset(data, 0, BLOCK_SIZE)`. -/
def zero_block : Block := { data := List.replicate BLOCK_SIZE 0 }

/-- The loop of `allocate_block_chain`: `alloc k` is the answer of the `k`-th `malloc`
(`true`: memory was obtained).  `none` is the failure path, which frees what was built. -/
def allocate_blocks (alloc : Nat → Bool) : Nat → Nat → Option (List Block)
  | _, 0 => some []
  | k, n + 1 =>
    if alloc k then (allocate_blocks alloc (k + 1) n).map (fun c => zero_block :: c) else none

/-- The function `allocate_block_chain`: the head of the chain, `NULL` on failure. -/
def allocate_block_chain (alloc : Nat → Bool) (k : Nat) (num_blocks : Nat) : List Block :=
  (allocate_blocks alloc k num_blocks).getD []

/-! ## `ufs_open` -/

/-- The mask `UFS_READ | UFS_WRITE | UFS_CREATE`. -/
def ANY_FLAG : Int := Int.lor (Int.lor UFS_READ UFS_WRITE) UFS_CREATE

/-- The mask `UFS_READ | UFS_WRITE`. -/
def ACCESS_FLAGS : Int := Int.lor UFS_READ UFS_WRITE

/-- The scan `for (i = 0; i < MAX_FILE_DESCRIPTORS; i++) if (!fds[i].used)`: the first
free slot among the `n` slots starting at `i`. -/
def find_free_fd (fds : Nat → FileDescriptor) : Nat → Nat → Option Nat
  | 0, _ => none
  | n + 1, i => if (fds i).used = false then some i else find_free_fd fds n (i + 1)

/-- The second half of `ufs_open`: bind the first free slot to the file at `p`. -/
def open_slot (fs : List File) (fds : Nat → FileDescriptor) (next_addr : Nat) (p : Nat)
    (flags : Int) : UFS × Except Errno Int :=
  match find_free_fd fds MAX_FILE_DESCRIPTORS 0 with
  | some i =>
    ({ file_system := fs
       fds := set_fd fds i
         { file := some p, offset := 0, mode := Int.land flags ACCESS_FLAGS, used := true }
       next_addr := next_addr }, .ok (i : Int))
  | none => ({ file_system := fs, fds := fds, next_addr := next_addr }, .error .EMFILE)

/-- The function `ufs_open`.  `alloc` is the answer of `malloc(sizeof(struct file))`;
`strdup` is taken to succeed.  The program assigns `name`, `size`, `blocks` and `next`
of the new file and leaves `data` unassigned: here the field is `NULL`, which is what it
is when the memory `malloc` returned was zero, and only then. -/
def ufs_open (alloc : Bool) (name : Option String) (flags : Int) (s : UFS) :
    UFS × Except Errno Int :=
  match name with
  | none => (s, .error .EINVAL)
  | some nm =>
    if Int.land flags ANY_FLAG = 0 then (s, .error .EINVAL)
    else
      match find_file s.file_system nm with
      | none =>
        if Int.land flags UFS_CREATE ≠ 0 then
          if alloc then
            open_slot
              ({ addr := s.next_addr, name := nm, size := 0, data := [], blocks := [] }
                :: s.file_system)
              s.fds (s.next_addr + 1) s.next_addr flags
          else (s, .error .ENOMEM)
        else (s, .error .ENOENT)
      | some f => open_slot s.file_system s.fds s.next_addr f.addr flags

/-! ## `ufs_close`, `ufs_delete`, `ufs_stat` -/

/-- The check `fd < 0 || fd >= MAX_FILE_DESCRIPTORS || !fds[fd].used`. -/
def bad_fd (s : UFS) (fd : Int) : Bool :=
  decide (fd < 0) || decide (fd ≥ (MAX_FILE_DESCRIPTORS : Int)) || !(s.fds fd.toNat).used

/-- The function `ufs_close`. -/
def ufs_close (fd : Int) (s : UFS) : UFS × Except Errno Int :=
  if bad_fd s fd then (s, .error .EBADF)
  else
    ({ s with fds := set_fd s.fds fd.toNat { s.fds fd.toNat with used := false } }, .ok 0)

/-- The loop of `ufs_delete`: unlink the first file named `name`; `none` if there is
none. -/
def delete_file : List File → String → Option (List File)
  | [], _ => none
  | f :: rest, name =>
    if f.name = name then some rest else (delete_file rest name).map (fun r => f :: r)

/-- The function `ufs_delete` (for a non-null `name`). -/
def ufs_delete (name : String) (s : UFS) : UFS × Except Errno Int :=
  match delete_file s.file_system name with
  | some fs => ({ s with file_system := fs }, .ok 0)
  | none => (s, .error .ENOENT)

/-- The function `ufs_stat`: `statbuf` is `none` for a null pointer and else the
caller's buffer; the result is the buffer after the call. -/
def ufs_stat (name : Option String) (statbuf : Option Stat) (s : UFS) : Except Errno Stat :=
  match name, statbuf with
  | some nm, some _ =>
    match find_file s.file_system nm with
    | none => .error .ENOENT
    | some f => .ok { st_size := f.size, st_mode := S_IFREG }
  | _, _ => .error .EINVAL

/-! ## `ufs_resize` -/

/-- A successful `realloc(data, n)`: the first `min n (old length)` bytes are kept.  The
fresh bytes are indeterminate in C; they are taken to be `0` (no operation of the program
reads the buffer). -/
def realloc (data : List Nat) (n : Nat) : List Nat :=
  data.take n ++ List.replicate (n - data.length) 0

/-- The call `memset(data + off, 0, n)`. -/
def memset_zero (data : List Nat) (off n : Nat) : List Nat :=
  data.take off ++ List.replicate n 0 ++ data.drop (off + n)

/-- The function `ufs_resize` (for a non-null `name`); `alloc` is the answer of
`realloc` (`false`: it returned `NULL`).  The call `realloc(file->data, new_size)` is
described for a `data` field that is `NULL` or a buffer; for the unassigned field of a new
file that is the case of zero memory (see `ufs_open`), and what the program does with any
other content of the field is not described. -/
def ufs_resize (alloc : Bool) (name : String) (new_size : Nat) (s : UFS) :
    UFS × Except Errno Int :=
  match find_file s.file_system name with
  | none => (s, .error .ENOENT)
  | some file =>
    if new_size = file.size then (s, .ok 0)
    else if new_size > file.size then
      if alloc then
        ({ s with file_system := store s.file_system file.addr (fun f =>
            { f with data := memset_zero (realloc f.data new_size) f.size (new_size - f.size)
                     size := new_size }) }, .ok 0)
      else (s, .error .ENOMEM)
    else
      if !alloc && decide (new_size > 0) then (s, .error .ENOMEM)
      else
        ({ s with file_system := store s.file_system file.addr (fun f =>
            { f with data := if alloc then realloc f.data new_size else []
                     size := new_size }) }, .ok 0)

/-! ## `ufs_write` -/

/-- The pointer `blocks` as a position in the chain `blocks`: `none` is `NULL`. -/
def head_ptr (blocks : List Block) : Option Nat :=
  if blocks.isEmpty then none else some 0

/-- The pointer `current_block->next` for `current_block` at position `i`. -/
def next_ptr (blocks : List Block) (i : Nat) : Option Nat :=
  if i + 1 < blocks.length then some (i + 1) else none

/-- The call `memcpy(dst + off, src, src.length)`. -/
def memcpy (dst : List Nat) (off : Nat) (src : List Nat) : List Nat :=
  dst.take off ++ src ++ dst.drop (off + src.length)

/-- The chain after `memcpy(current_block->data + off, src, n)` for `current_block` at
position `i`. -/
def write_block : List Block → Nat → Nat → List Nat → List Block
  | [], _, _, _ => []
  | b :: rest, 0, off, src => { data := memcpy b.data off src } :: rest
  | b :: rest, i + 1, off, src => b :: write_block rest i off src

/-- The loop `for (i = 0; i < block_index; i++)` of `ufs_write`, run `n` times on
(`file->blocks`, `current_block`, number of `malloc` calls so far).  `last_block` is
`&file->blocks` throughout, so `*last_block = current_block` replaces the whole chain of
the file by the new block. -/
def write_walk (alloc : Nat → Bool) : Nat → List Block → Option Nat → Nat →
    List Block × Option Nat × Nat
  | 0, blocks, cur, k => (blocks, cur, k)
  | n + 1, blocks, cur, k =>
    match cur with
    | some i => write_walk alloc n blocks (next_ptr blocks i) k
    | none =>
      write_walk alloc n (allocate_block_chain alloc k 1)
        (head_ptr (allocate_block_chain alloc k 1)) (k + 1)

/-- The statement `if (current_block == NULL) { ... }` after the loop. -/
def write_ensure (alloc : Nat → Bool) (w : List Block × Option Nat × Nat) :
    List Block × Option Nat × Nat :=
  match w.2.1 with
  | some i => (w.1, some i, w.2.2)
  | none =>
    (allocate_block_chain alloc w.2.2 1, head_ptr (allocate_block_chain alloc w.2.2 1),
      w.2.2 + 1)

/-- The result of the `while` loop of `ufs_write`. -/
structure WriteResult where
  blocks : List Block
  offset : Nat
  written : Nat
  enomem : Bool
  deriving DecidableEq, Repr

/-- The loop `while (written < count)` of `ufs_write` on (`file->blocks`,
`fds[fd].offset`, `written`, number of `malloc` calls so far); `buf` holds the `count`
bytes.  Every round copies at least one byte, so `count - written` rounds are enough;
`none` when the fuel is too small. -/
def write_loop (alloc : Nat → Bool) (buf : List Nat) : Nat → List Block → Nat → Nat → Nat →
    Option WriteResult
  | 0, blocks, offset, written, _ =>
    if written < buf.length then none
    else some { blocks := blocks, offset := offset, written := written, enomem := false }
  | fuel + 1, blocks, offset, written, k =>
    if written < buf.length then
      let w := write_ensure alloc
        (write_walk alloc (offset / BLOCK_SIZE) blocks (head_ptr blocks) k)
      match w.2.1 with
      | some i =>
        let to_write := min (BLOCK_SIZE - offset % BLOCK_SIZE) (buf.length - written)
        write_loop alloc buf fuel
          (write_block w.1 i (offset % BLOCK_SIZE) ((buf.drop written).take to_write))
          (offset + to_write) (written + to_write) w.2.2
      | none =>
        some { blocks := w.1, offset := offset, written := written, enomem := true }
    else some { blocks := blocks, offset := offset, written := written, enomem := false }

/-- The function `ufs_write`; `buf` holds the `count` bytes to write and `alloc k` is the
answer of the `k`-th `malloc` of the call.  `none`: the descriptor's file pointer
dangles (undefined behaviour). -/
def ufs_write (alloc : Nat → Bool) (fd : Int) (buf : List Nat) (s : UFS) :
    Option (UFS × Except Errno Int) :=
  if bad_fd s fd || decide (Int.land (s.fds fd.toNat).mode UFS_WRITE = 0) then
    some (s, .error .EBADF)
  else
    match (s.fds fd.toNat).file with
    | none => none
    | some p =>
      match deref s.file_system p with
      | none => none
      | some file =>
        match write_loop alloc buf buf.length file.blocks (s.fds fd.toNat).offset 0 0 with
        | none => none
        | some r =>
          if r.enomem then
            some ({ s with
                    file_system := store s.file_system p (fun f => { f with blocks := r.blocks })
                    fds := set_fd s.fds fd.toNat { s.fds fd.toNat with offset := r.offset } },
                  .error .ENOMEM)
          else
            some ({ s with
                    file_system := store s.file_system p (fun f =>
                      { f with blocks := r.blocks
                               size := if r.offset > f.size then r.offset else f.size })
                    fds := set_fd s.fds fd.toNat { s.fds fd.toNat with offset := r.offset } },
                  .ok (r.written : Int))

/-! ## `ufs_read` -/

/-- The loop `for (i = 0; i < block_index; i++)` of `ufs_read` on `current_block`:
`none` when it meets `NULL` (the function returns `read`). -/
def read_walk : Nat → List Block → Option (List Block)
  | 0, cur => some cur
  | _ + 1, [] => none
  | n + 1, _ :: next => read_walk n next

/-- The result of the `while` loop of `ufs_read`: the final `fds[fd].offset`, the
counter `read` and the bytes copied to `buf`. -/
structure ReadResult where
  offset : Nat
  read : Nat
  out : List Nat
  deriving DecidableEq, Repr

/-- The loop `while (read < count)` of `ufs_read` on (`fds[fd].offset`, `read`, bytes
copied to `buf` so far).  Every round adds at least one to `read`, so `count - read`
rounds are enough; `none` when the fuel is too small. -/
def read_loop (blocks : List Block) (count : Nat) : Nat → Nat → Nat → List Nat →
    Option ReadResult
  | 0, offset, read, out =>
    if read < count then none else some { offset := offset, read := read, out := out }
  | fuel + 1, offset, read, out =>
    if read < count then
      match read_walk (offset / BLOCK_SIZE) blocks with
      | none => some { offset := offset, read := read, out := out }
      | some [] => some { offset := offset, read := read, out := out }
      | some (b :: _) =>
        let to_read := min (BLOCK_SIZE - offset % BLOCK_SIZE) (count - read)
        read_loop blocks count fuel (offset + to_read) (read + to_read)
          (out ++ (b.data.drop (offset % BLOCK_SIZE)).take to_read)
    else some { offset := offset, read := read, out := out }

/-- The function `ufs_read`: the result is the return value and the bytes copied to
`buf`.  `none`: the descriptor's file pointer dangles (undefined behaviour); with
`count = 0` the pointer is not dereferenced. -/
def ufs_read (fd : Int) (count : Nat) (s : UFS) :
    Option (UFS × Except Errno (Nat × List Nat)) :=
  if bad_fd s fd || decide (Int.land (s.fds fd.toNat).mode UFS_READ = 0) then
    some (s, .error .EBADF)
  else if count = 0 then some (s, .ok (0, []))
  else
    match (s.fds fd.toNat).file with
    | none => none
    | some p =>
      match deref s.file_system p with
      | none => none
      | some file =>
        match read_loop file.blocks count count (s.fds fd.toNat).offset 0 [] with
        | none => none
        | some r =>
          some ({ s with
                  fds := set_fd s.fds fd.toNat { s.fds fd.toNat with offset := r.offset } },
                .ok (r.read, r.out))

/-! ## Sequences of calls -/

/-- Consecutive calls of `ufs_open`, every `malloc` succeeding and no other call in
between: the final state and the return values in call order. -/
def open_all : List (Option String × Int) → UFS → UFS × List (Except Errno Int)
  | [], s => (s, [])
  | (name, flags) :: rest, s =>
    ((open_all rest (ufs_open true name flags s).1).1,
      (ufs_open true name flags s).2 :: (open_all rest (ufs_open true name flags s).1).2)

/-- Valid arguments of `ufs_open` in state `s`: the name is not null, the flags contain
Read, Write or Create, and the name is in the File Table or Create is set. -/
def valid_open_args (s : UFS) (name : Option String) (flags : Int) : Bool :=
  match name with
  | none => false
  | some nm =>
    decide (Int.land flags ANY_FLAG ≠ 0) &&
      ((find_file s.file_system nm).isSome || decide (Int.land flags UFS_CREATE ≠ 0))

/-- Every call of the sequence has valid arguments in the state it is made in. -/
def valid_open_seq : List (Option String × Int) → UFS → Bool
  | [], _ => true
  | (name, flags) :: rest, s =>
    valid_open_args s name flags && valid_open_seq rest (ufs_open true name flags s).1

/-- The mask `UFS_CREATE | UFS_WRITE` of the tests. -/
def CREATE_WRITE : Int := Int.lor UFS_CREATE UFS_WRITE

/-- The first half of the round trip of `test_open_write_read_close`: open `name` with
`UFS_CREATE | UFS_WRITE`, write `content` with one `ufs_write` call, close; every
allocation succeeds.  The result is the state after the close and the return value of
`ufs_write`. -/
def write_file (name : String) (content : List Nat) (s : UFS) :
    Option (UFS × Except Errno Int) :=
  match (ufs_open true (some name) CREATE_WRITE s).2 with
  | .ok fd =>
    match ufs_write (fun _ => true) fd content (ufs_open true (some name) CREATE_WRITE s).1 with
    | some (s1, r) => some ((ufs_close fd s1).1, r)
    | none => none
  | .error _ => none

/-- The second half: open `name` with `UFS_READ`, read `count` bytes with one `ufs_read`
call, close.  The result is the state after the close and what `ufs_read` returned. -/
def read_file (name : String) (count : Nat) (s : UFS) :
    Option (UFS × Except Errno (Nat × List Nat)) :=
  match (ufs_open true (some name) UFS_READ s).2 with
  | .ok fd =>
    match ufs_read fd count (ufs_open true (some name) UFS_READ s).1 with
    | some (s1, r) => some ((ufs_close fd s1).1, r)
    | none => none
  | .error _ => none

/-! ## Reachable states -/

/-- The states the program can be in: `ufs_init` and every state a call of `ufs_open`,
`ufs_write`, `ufs_read`, `ufs_close`, `ufs_delete` or `ufs_resize` with defined
behaviour leads to from such a state (`ufs_stat` does not change the state). -/
inductive Reachable : UFS → Prop
  | init : Reachable ufs_init
  | step_open (alloc : Bool) (name : Option String) (flags : Int) {s : UFS} :
      Reachable s → Reachable (ufs_open alloc name flags s).1
  | step_write (alloc : Nat → Bool) (fd : Int) (buf : List Nat) {s s1 : UFS}
      {r : Except Errno Int} :
      Reachable s → ufs_write alloc fd buf s = some (s1, r) → Reachable s1
  | step_read (fd : Int) (count : Nat) {s s1 : UFS} {r : Except Errno (Nat × List Nat)} :
      Reachable s → ufs_read fd count s = some (s1, r) → Reachable s1
  | step_close (fd : Int) {s : UFS} : Reachable s → Reachable (ufs_close fd s).1
  | step_delete (name : String) {s : UFS} : Reachable s → Reachable (ufs_delete name s).1
  | step_resize (alloc : Bool) (name : String) (new_size : Nat) {s : UFS} :
      Reachable s → Reachable (ufs_resize alloc name new_size s).1

/-- Well-formed file tables: names are unique, and so are the addresses of the file
objects, which all lie below the next address `malloc` hands out. -/
structure WF (s : UFS) : Prop where
  names : (s.file_system.map File.name).Nodup
  addrs : (s.file_system.map File.addr).Nodup
  fresh : ∀ f ∈ s.file_system, f.addr < s.next_addr

/-- The first loop of `test_multiple_files`: create and write the files one after the
other, each with `write_file`. -/
def write_files : List (String × List Nat) → UFS → Option UFS
  | [], s => some s
  | (name, content) :: rest, s =>
    match write_file name content s with
    | some (s1, _) => write_files rest s1
    | none => none

/-- The second loop of `test_multiple_files`: read the files back one after the other,
each with `read_file`; the results of the `ufs_read` calls in call order. -/
def read_files : List (String × Nat) → UFS → List (Option (Except Errno (Nat × List Nat)))
  | [], _ => []
  | (name, count) :: rest, s =>
    match read_file name count s with
    | some (s1, r) => some r :: read_files rest s1
    | none => [none]

/-- What reading `name` back returns when it is the only file ever created and written:
`write_file` on the empty file system followed by `read_file` for the length of the
content. -/
def read_alone (name : String) (content : List Nat) :
    Option (Except Errno (Nat × List Nat)) :=
  match write_file name content ufs_init with
  | some (s1, _) => (read_file name content.length s1).map (fun x => x.2)
  | none => none

/-- No descriptor of the scenario is open: slot 0 is free (and the table is
well-formed). -/
structure Idle (s : UFS) : Prop where
  wf : WF s
  slot : (s.fds 0).used = false

/-- The file `name` of the table holds the chain that `ufs_write` builds for `content`
on a new file. -/
def holds_content (s : UFS) (x : String × List Nat) : Prop :=
  ∃ f r, find_file s.file_system x.1 = some f ∧
    write_loop (fun _ => true) x.2 x.2.length [] 0 0 0 = some r ∧ f.blocks = r.blocks

/-- A state with a full descriptor table: the file `"a"` exists and every one of the
slots is in use, open on it with Read (as after 256 calls `ufs_open("a", UFS_READ)`). -/
def all_slots_open : UFS :=
  { file_system := [{ addr := 1, name := "a", size := 0, data := [], blocks := [] }]
    fds := fun _ => { file := some 1, offset := 0, mode := 1, used := true }
    next_addr := 2 }

/-! ## Block chains -/

/-- The bytes a chain stores, in position order: the `data` of its blocks one after
the other. -/
def chain_bytes : List Block → List Nat
  | [] => []
  | b :: rest => b.data ++ chain_bytes rest

/-- Every block of the chain holds `BLOCK_SIZE` bytes (in the program, by the type of
`data`). -/
def blocks_sized (blocks : List Block) : Prop :=
  ∀ b ∈ blocks, b.data.length = BLOCK_SIZE

/-- The invariant `ceil(size / BLOCK_SIZE) ≤ number of blocks` of a file. -/
def size_within_capacity (f : File) : Bool :=
  decide ((f.size + (BLOCK_SIZE - 1)) / BLOCK_SIZE ≤ f.blocks.length)

/-- The state after `ufs_open("a", UFS_READ | UFS_WRITE | UFS_CREATE)` on the empty file
system and `ufs_write` of the three bytes `1, 2, 3` through the descriptor 0 it returns,
which is left open at offset 3. -/
def after_write : UFS :=
  match ufs_write (fun _ => true) 0 [1, 2, 3] (ufs_open true (some "a") 7 ufs_init).1 with
  | some (s, _) => s
  | none => ufs_init

end UserFS

/-! # Theorems -/

namespace UserFS

/-! ## Flag masks -/

theorem nat_eq_zero_iff_testBit (x : Nat) : x = 0 ↔ ∀ i, x.testBit i = false :=
  ⟨fun h i => by simp [h], fun h => Nat.eq_of_testBit_eq (by simpa using h)⟩

theorem testBit_seven (i : Nat) :
    (7 : Nat).testBit i
      = ((1 : Nat).testBit i || (2 : Nat).testBit i || (4 : Nat).testBit i) := by
  have h7 : (7 : Nat) = 1 ||| 2 ||| 4 := by decide
  rw [h7, Nat.testBit_lor, Nat.testBit_lor]

theorem nat_land_seven (n : Nat) :
    n &&& 7 = 0 ↔ (n &&& 1 = 0 ∧ n &&& 2 = 0 ∧ n &&& 4 = 0) := by
  simp only [nat_eq_zero_iff_testBit, Nat.testBit_land, testBit_seven]
  constructor
  · intro h
    refine ⟨fun i => ?_, fun i => ?_, fun i => ?_⟩ <;>
      · have := h i
        revert this
        cases n.testBit i <;> cases (1 : Nat).testBit i <;> cases (2 : Nat).testBit i <;>
          cases (4 : Nat).testBit i <;> simp
  · rintro ⟨h1, h2, h4⟩ i
    have a1 := h1 i
    have a2 := h2 i
    have a4 := h4 i
    revert a1 a2 a4
    cases n.testBit i <;> cases (1 : Nat).testBit i <;> cases (2 : Nat).testBit i <;>
      cases (4 : Nat).testBit i <;> simp

theorem nat_ldiff_seven (n : Nat) :
    Nat.ldiff 7 n = 0 ↔ (Nat.ldiff 1 n = 0 ∧ Nat.ldiff 2 n = 0 ∧ Nat.ldiff 4 n = 0) := by
  simp only [nat_eq_zero_iff_testBit, Nat.testBit_ldiff, testBit_seven]
  constructor
  · intro h
    refine ⟨fun i => ?_, fun i => ?_, fun i => ?_⟩ <;>
      · have := h i
        revert this
        cases n.testBit i <;> cases (1 : Nat).testBit i <;> cases (2 : Nat).testBit i <;>
          cases (4 : Nat).testBit i <;> simp
  · rintro ⟨h1, h2, h4⟩ i
    have a1 := h1 i
    have a2 := h2 i
    have a4 := h4 i
    revert a1 a2 a4
    cases n.testBit i <;> cases (1 : Nat).testBit i <;> cases (2 : Nat).testBit i <;>
      cases (4 : Nat).testBit i <;> simp

/-- The mask test of `ufs_open` fails exactly when none of the three flags is set. -/
theorem land_any_flag (flags : Int) :
    Int.land flags ANY_FLAG = 0 ↔
      (Int.land flags UFS_READ = 0 ∧ Int.land flags UFS_WRITE = 0 ∧
        Int.land flags UFS_CREATE = 0) := by
  have e7 : ANY_FLAG = Int.ofNat 7 := by decide
  have e1 : UFS_READ = Int.ofNat 1 := rfl
  have e2 : UFS_WRITE = Int.ofNat 2 := rfl
  have e4 : UFS_CREATE = Int.ofNat 4 := rfl
  rw [e7, e1, e2, e4]
  cases flags with
  | ofNat n =>
    simp only [Int.land]
    exact_mod_cast nat_land_seven n
  | negSucc n =>
    simp only [Int.land]
    exact_mod_cast nat_ldiff_seven n

/-! ## The descriptor scan -/

theorem find_free_fd_some (fds : Nat → FileDescriptor) :
    ∀ (n i j : Nat), find_free_fd fds n i = some j →
      i ≤ j ∧ j < i + n ∧ (fds j).used = false ∧ ∀ k, i ≤ k → k < j → (fds k).used = true := by
  intro n
  induction n with
  | zero => intro i j h; simp [find_free_fd] at h
  | succ n ih =>
    intro i j h
    unfold find_free_fd at h
    by_cases hu : (fds i).used = false
    · rw [if_pos hu] at h
      cases h
      exact ⟨le_refl _, by omega, hu, fun k h1 h2 => absurd h2 (by omega)⟩
    · rw [if_neg hu] at h
      obtain ⟨h1, h2, h3, h4⟩ := ih (i + 1) j h
      refine ⟨by omega, by omega, h3, fun k hk1 hk2 => ?_⟩
      by_cases hki : k = i
      · subst hki; simpa using hu
      · exact h4 k (by omega) hk2

theorem find_free_fd_none (fds : Nat → FileDescriptor) :
    ∀ (n i : Nat), find_free_fd fds n i = none ↔
      ∀ k, i ≤ k → k < i + n → (fds k).used = true := by
  intro n
  induction n with
  | zero => intro i; simp [find_free_fd]; intro k h1 h2; omega
  | succ n ih =>
    intro i
    unfold find_free_fd
    by_cases hu : (fds i).used = false
    · rw [if_pos hu]
      simp only [false_iff, reduceCtorEq]
      intro h
      have := h i (le_refl _) (by omega)
      rw [hu] at this
      cases this
    · rw [if_neg hu, ih (i + 1)]
      constructor
      · intro h k hk1 hk2
        by_cases hki : k = i
        · subst hki; simpa using hu
        · exact h k (by omega) (by omega)
      · intro h k hk1 hk2
        exact h k (by omega) (by omega)

/-! ## `ufs_close` -/

theorem bad_fd_iff (s : UFS) (fd : Int) :
    bad_fd s fd = true ↔
      (fd < 0 ∨ fd ≥ (MAX_FILE_DESCRIPTORS : Int) ∨ (s.fds fd.toNat).used = false) := by
  simp [bad_fd, or_assoc]

/-- C6: `ufs_close fd` fails with `EBADF` exactly when `fd` is outside
`[0, MAX_FILE_DESCRIPTORS)` or slot `fd` is not in use, and it fails in no other way; a
failing call leaves the whole state (descriptors and files) as it was; and after a
successful close a second close of the same id fails with `EBADF`. -/
theorem ufs_close_bad_descriptor (s : UFS) (fd : Int) :
    ((ufs_close fd s).2 = .error .EBADF ↔
        (fd < 0 ∨ fd ≥ (MAX_FILE_DESCRIPTORS : Int) ∨ (s.fds fd.toNat).used = false)) ∧
      ((ufs_close fd s).2 = .error .EBADF ∨ (ufs_close fd s).2 = .ok 0) ∧
      ((ufs_close fd s).2 = .error .EBADF → (ufs_close fd s).1 = s) ∧
      ((ufs_close fd s).2 = .ok 0 →
        (ufs_close fd (ufs_close fd s).1).2 = .error .EBADF ∧
          (ufs_close fd (ufs_close fd s).1).1 = (ufs_close fd s).1) := by
  by_cases hb : bad_fd s fd = true
  · have hc : ufs_close fd s = (s, .error .EBADF) := by simp [ufs_close, hb]
    rw [hc]
    refine ⟨?_, Or.inl rfl, fun _ => rfl, fun h => by cases h⟩
    simp only [true_iff]
    exact (bad_fd_iff s fd).1 hb
  · have hc : ufs_close fd s
        = ({ s with fds := set_fd s.fds fd.toNat { s.fds fd.toNat with used := false } },
            .ok 0) := by
      simp [ufs_close, hb]
    rw [hc]
    refine ⟨?_, Or.inr rfl, (fun h => by cases h), fun _ => ?_⟩
    · constructor
      · intro h; cases h
      · intro h; exact absurd ((bad_fd_iff s fd).2 h) hb
    · have hb2 : bad_fd
          { s with fds := set_fd s.fds fd.toNat { s.fds fd.toNat with used := false } } fd
          = true := by
        simp [bad_fd, set_fd]
      simp [ufs_close, hb2]

/-! ## `ufs_open` -/

theorem open_slot_result (fs : List File) (fds : Nat → FileDescriptor) (na p : Nat)
    (flags : Int) :
    (find_free_fd fds MAX_FILE_DESCRIPTORS 0 = none ∧
        open_slot fs fds na p flags
          = ({ file_system := fs, fds := fds, next_addr := na }, .error .EMFILE)) ∨
      ∃ n, find_free_fd fds MAX_FILE_DESCRIPTORS 0 = some n ∧
        open_slot fs fds na p flags
          = ({ file_system := fs
               fds := set_fd fds n
                 { file := some p, offset := 0, mode := Int.land flags ACCESS_FLAGS,
                   used := true }
               next_addr := na }, .ok (n : Int)) := by
  unfold open_slot
  cases h : find_free_fd fds MAX_FILE_DESCRIPTORS 0 with
  | none => exact Or.inl ⟨rfl, rfl⟩
  | some n => exact Or.inr ⟨n, rfl, rfl⟩

theorem open_slot_file_system (fs : List File) (fds : Nat → FileDescriptor) (na p : Nat)
    (flags : Int) : (open_slot fs fds na p flags).1.file_system = fs := by
  rcases open_slot_result fs fds na p flags with ⟨_, h⟩ | ⟨n, _, h⟩ <;> rw [h]

theorem open_slot_not_einval (fs : List File) (fds : Nat → FileDescriptor) (na p : Nat)
    (flags : Int) : (open_slot fs fds na p flags).2 ≠ .error .EINVAL := by
  rcases open_slot_result fs fds na p flags with ⟨_, h⟩ | ⟨n, _, h⟩ <;> rw [h] <;> simp

/-- C7 (amended): `ufs_open` fails with `EINVAL` exactly when the name is null or the
flags contain none of Read, Write, Create, whatever the other arguments are; such a call
leaves the whole state unchanged (no file is created, no slot is taken).  The empty name
is not rejected: it is a name like any other. -/
theorem ufs_open_invalid_argument (alloc : Bool) (name : Option String) (flags : Int)
    (s : UFS) :
    ((ufs_open alloc name flags s).2 = .error .EINVAL ↔
        (name = none ∨
          (Int.land flags UFS_READ = 0 ∧ Int.land flags UFS_WRITE = 0 ∧
            Int.land flags UFS_CREATE = 0))) ∧
      ((ufs_open alloc name flags s).2 = .error .EINVAL →
        (ufs_open alloc name flags s).1 = s) := by
  rw [← land_any_flag]
  cases name with
  | none => simp [ufs_open]
  | some nm =>
    by_cases hf : Int.land flags ANY_FLAG = 0
    · simp [ufs_open, hf]
    · have key : (ufs_open alloc (some nm) flags s).2 ≠ .error .EINVAL := by
        simp only [ufs_open, if_neg hf]
        cases find_file s.file_system nm with
        | none =>
          by_cases hc : Int.land flags UFS_CREATE ≠ 0
          · cases alloc
            · simp [hc]
            · simpa [hc] using open_slot_not_einval _ _ _ _ _
          · simp [hc]
        | some f => exact open_slot_not_einval _ _ _ _ _
      refine ⟨⟨fun h => absurd h key, fun h => ?_⟩, fun h => absurd h key⟩
      rcases h with h | h
      · cases h
      · exact absurd h hf

/-- C7, counterexample: on the empty file system, opening the empty name `""` with
Create does not fail: it returns descriptor 0 and creates a file named `""`. -/
theorem ufs_open_empty_name_accepted :
    (ufs_open true (some "") UFS_CREATE ufs_init).2 = .ok 0 ∧
      (ufs_open true (some "") UFS_CREATE ufs_init).1.file_system
        = [{ addr := 1, name := "", size := 0, data := [], blocks := [] }] ∧
      ((ufs_open true (some "") UFS_CREATE ufs_init).1.fds 0).used = true := by
  decide

theorem find_file_name (fs : List File) (name : String) (f : File)
    (h : find_file fs name = some f) : f.name = name := by
  induction fs with
  | nil => simp [find_file] at h
  | cons g rest ih =>
    unfold find_file at h
    by_cases hg : g.name = name
    · rw [if_pos hg] at h; cases h; exact hg
    · rw [if_neg hg] at h; exact ih h

/-- The file `ufs_open` binds the descriptor to, and the state and address it hands to
the slot allocation, when the call gets that far. -/
theorem ufs_open_reaches_slot (alloc : Bool) (nm : String) (flags : Int) (s : UFS)
    (h : ∀ e, (ufs_open alloc (some nm) flags s).2 ≠ .error e ∨
      (ufs_open alloc (some nm) flags s).2 = .error .EMFILE) :
    ∃ fs na f, find_file fs nm = some f ∧
      ufs_open alloc (some nm) flags s = open_slot fs s.fds na f.addr flags := by
  by_cases hf : Int.land flags ANY_FLAG = 0
  · have := h .EINVAL
    simp [ufs_open, hf] at this
  · cases hfind : find_file s.file_system nm with
    | none =>
      by_cases hc : Int.land flags UFS_CREATE ≠ 0
      · cases alloc
        · have := h .ENOMEM
          simp [ufs_open, hf, hfind, hc] at this
        · refine ⟨{ addr := s.next_addr, name := nm, size := 0, data := [], blocks := [] }
              :: s.file_system, s.next_addr + 1,
            { addr := s.next_addr, name := nm, size := 0, data := [], blocks := [] }, ?_, ?_⟩
          · simp [find_file]
          · simp [ufs_open, hf, hfind, hc]
      · have := h .ENOENT
        simp [ufs_open, hf, hfind, hc] at this
    | some f =>
      exact ⟨s.file_system, s.next_addr, f, hfind, by simp [ufs_open, hf, hfind]⟩

/-- C9: a successful `ufs_open` returns the lowest-indexed slot that was free before the
call: the returned id `n` is below `MAX_FILE_DESCRIPTORS`, slot `n` was free and every
lower slot was in use.  After the call slot `n` holds (the file named `name`, offset 0,
mode `flags & (UFS_READ | UFS_WRITE)`, used) and every other slot is as before.  Hence,
when the state `s` is the result of a successful `ufs_close fd` on a state in which
every slot below `fd` was in use, the open returns `fd` again. -/
theorem ufs_open_lowest_free_slot (alloc : Bool) (name : Option String) (flags : Int)
    (s : UFS) (i : Int) (h : (ufs_open alloc name flags s).2 = .ok i) :
    (∃ (n : Nat) (nm : String) (f : File), i = (n : Int) ∧ name = some nm ∧ n < MAX_FILE_DESCRIPTORS ∧
        (s.fds n).used = false ∧ (∀ j, j < n → (s.fds j).used = true) ∧
        find_file (ufs_open alloc name flags s).1.file_system nm = some f ∧
        (ufs_open alloc name flags s).1.fds n
          = { file := some f.addr, offset := 0, mode := Int.land flags ACCESS_FLAGS,
              used := true } ∧
        ∀ j, j ≠ n → (ufs_open alloc name flags s).1.fds j = s.fds j) ∧
      (∀ (s0 : UFS) (fd : Int), (ufs_close fd s0).2 = .ok 0 → s = (ufs_close fd s0).1 →
        (∀ j, j < fd.toNat → (s0.fds j).used = true) → i = fd) := by
  cases name with
  | none => simp [ufs_open] at h
  | some nm =>
    obtain ⟨fs, na, f, hfind, heq⟩ := ufs_open_reaches_slot alloc nm flags s
      (fun e => Or.inl (by rw [h]; simp))
    rw [heq] at h ⊢
    rcases open_slot_result fs s.fds na f.addr flags with ⟨_, hr⟩ | ⟨n, hn, hr⟩
    · rw [hr] at h; simp at h
    · rw [hr] at h ⊢
      have hi : i = (n : Int) := by
        simp only [Except.ok.injEq] at h
        exact h.symm
      obtain ⟨_, h2, h3, h4⟩ := find_free_fd_some s.fds _ _ _ hn
      refine ⟨⟨n, nm, f, hi, rfl, by omega, h3, fun j hj => h4 j (Nat.zero_le _) hj,
        hfind, by simp [set_fd], fun j hj => by simp [set_fd, hj]⟩, ?_⟩
      intro s0 fd hc hs hlow
      have hnb : bad_fd s0 fd = false := by
        by_contra hb
        simp only [Bool.not_eq_false] at hb
        simp [ufs_close, hb] at hc
      have hbounds : ¬ (fd < 0 ∨ fd ≥ (MAX_FILE_DESCRIPTORS : Int) ∨
          (s0.fds fd.toNat).used = false) := by
        rw [← bad_fd_iff, hnb]; simp
      have hfd0 : 0 ≤ fd := by omega
      have hs2 : s.fds = set_fd s0.fds fd.toNat { s0.fds fd.toNat with used := false } := by
        rw [hs]; simp [ufs_close, hnb]
      have hfree : (s.fds fd.toNat).used = false := by rw [hs2]; simp [set_fd]
      have hused : ∀ j, j < fd.toNat → (s.fds j).used = true := by
        intro j hj
        rw [hs2]
        have : j ≠ fd.toNat := by omega
        simp [set_fd, this, hlow j hj]
      have hn_eq : n = fd.toNat := by
        rcases Nat.lt_trichotomy n fd.toNat with hlt | heq | hgt
        · have := hused n hlt
          rw [h3] at this; cases this
        · exact heq
        · have := h4 fd.toNat (Nat.zero_le _) hgt
          rw [hfree] at this; cases this
      rw [hi, hn_eq]
      exact Int.toNat_of_nonneg hfd0

/-- C9, witness: opening a new name on the empty file system, and reopening after a
close. -/
theorem ufs_open_lowest_free_slot_witness :
    (ufs_open true (some "a") 6 ufs_init).2 = .ok 0 ∧
      ((∃ (n : Nat) (nm : String) (f : File), (0 : Int) = (n : Int) ∧ some "a" = some nm ∧ n < MAX_FILE_DESCRIPTORS ∧
        (ufs_init.fds n).used = false ∧ (∀ j, j < n → (ufs_init.fds j).used = true) ∧
        find_file (ufs_open true (some "a") 6 ufs_init).1.file_system nm = some f ∧
        (ufs_open true (some "a") 6 ufs_init).1.fds n
          = { file := some f.addr, offset := 0, mode := Int.land 6 ACCESS_FLAGS,
              used := true } ∧
        ∀ j, j ≠ n → (ufs_open true (some "a") 6 ufs_init).1.fds j = ufs_init.fds j) ∧
      (∀ (s0 : UFS) (fd : Int), (ufs_close fd s0).2 = .ok 0 →
        ufs_init = (ufs_close fd s0).1 →
        (∀ j, j < fd.toNat → (s0.fds j).used = true) → (0 : Int) = fd)) :=
  ⟨by decide, ufs_open_lowest_free_slot true (some "a") 6 ufs_init 0 (by decide)⟩

/-- C10: for a non-null name and flags with at least one of Read, Write, Create.  If the
name is not in the File Table: without Create the call fails with `ENOENT` and leaves
the state unchanged; with Create (and `malloc` succeeding) the File Table after the call
is the old one with exactly one new file in front, of that name, with size 0 and an
empty block chain.  If the name is in the File Table, the File Table after the call is
the one before it, whatever the flags and the outcome. -/
theorem ufs_open_file_table (alloc : Bool) (nm : String) (flags : Int) (s : UFS)
    (hflags : Int.land flags UFS_READ ≠ 0 ∨ Int.land flags UFS_WRITE ≠ 0 ∨
      Int.land flags UFS_CREATE ≠ 0) :
    (find_file s.file_system nm = none → Int.land flags UFS_CREATE = 0 →
        ufs_open alloc (some nm) flags s = (s, .error .ENOENT)) ∧
      (find_file s.file_system nm = none → Int.land flags UFS_CREATE ≠ 0 →
        ∃ f : File, f.name = nm ∧ f.size = 0 ∧ f.blocks = [] ∧
          (ufs_open true (some nm) flags s).1.file_system = f :: s.file_system) ∧
      (find_file s.file_system nm ≠ none →
        (ufs_open alloc (some nm) flags s).1.file_system = s.file_system) := by
  have hf : ¬ Int.land flags ANY_FLAG = 0 := by
    rw [land_any_flag]
    rintro ⟨h1, h2, h3⟩
    rcases hflags with h | h | h
    · exact h h1
    · exact h h2
    · exact h h3
  refine ⟨fun hn hc => ?_, fun hn hc => ?_, fun hn => ?_⟩
  · simp [ufs_open, hf, hn, hc]
  · refine ⟨{ addr := s.next_addr, name := nm, size := 0, data := [], blocks := [] },
      rfl, rfl, rfl, ?_⟩
    simp [ufs_open, hf, hn, hc, open_slot_file_system]
  · cases hfind : find_file s.file_system nm with
    | none => exact absurd hfind hn
    | some f => simp [ufs_open, hf, hfind, open_slot_file_system]

/-- C10, witness: on the empty file system `"a"` is absent; Read alone fails with
`ENOENT`, Create adds the file; on the resulting state `"a"` is present. -/
theorem ufs_open_file_table_witness :
    ((find_file ufs_init.file_system "a" = none → Int.land 1 UFS_CREATE = 0 →
        ufs_open true (some "a") 1 ufs_init = (ufs_init, .error .ENOENT)) ∧
      (find_file ufs_init.file_system "a" = none → Int.land 1 UFS_CREATE ≠ 0 →
        ∃ f : File, f.name = "a" ∧ f.size = 0 ∧ f.blocks = [] ∧
          (ufs_open true (some "a") 1 ufs_init).1.file_system
            = f :: ufs_init.file_system) ∧
      (find_file ufs_init.file_system "a" ≠ none →
        (ufs_open true (some "a") 1 ufs_init).1.file_system = ufs_init.file_system)) ∧
    find_file ufs_init.file_system "a" = none ∧ Int.land 1 UFS_CREATE = 0 ∧
    Int.land 4 UFS_CREATE ≠ 0 ∧
    find_file (ufs_open true (some "a") 4 ufs_init).1.file_system "a" ≠ none :=
  ⟨ufs_open_file_table true "a" 1 ufs_init (Or.inl (by decide)), by decide, by decide,
    by decide, by decide⟩

/-! ## Stores and `find_file` -/

/-- A store through the address of the file found under `name` is seen by `find_file`:
the file found afterwards is the updated one. -/
theorem find_file_store_self (g : File → File) (hg : ∀ x, (g x).name = x.name)
    (name : String) (f : File) :
    ∀ fs : List File, find_file fs name = some f →
      find_file (store fs f.addr g) name = some (g f) := by
  intro fs
  induction fs with
  | nil => intro h; simp [find_file] at h
  | cons x rest ih =>
    intro h
    unfold find_file at h
    by_cases hx : x.name = name
    · rw [if_pos hx] at h
      cases h
      simp [store, find_file, hg, hx]
    · rw [if_neg hx] at h
      have ih2 := ih h
      unfold store at ih2 ⊢
      rw [List.map_cons]
      unfold find_file
      by_cases ha : x.addr = f.addr
      · rw [if_pos ha, if_neg (by rw [hg]; exact hx)]
        exact ih2
      · rw [if_neg ha, if_neg hx]
        exact ih2

/-! ## Descriptor capacity -/

theorem ufs_open_valid_reaches_slot (nm : String) (flags : Int) (s : UFS)
    (hv : valid_open_args s (some nm) flags = true) :
    ∃ fs na p, ufs_open true (some nm) flags s = open_slot fs s.fds na p flags := by
  simp only [valid_open_args, Bool.and_eq_true, Bool.or_eq_true, decide_eq_true_eq] at hv
  obtain ⟨hf, hx⟩ := hv
  cases hfind : find_file s.file_system nm with
  | none =>
    have hc : Int.land flags UFS_CREATE ≠ 0 := by
      rcases hx with h | h
      · rw [hfind] at h; cases h
      · exact h
    exact ⟨_, _, _, by simp [ufs_open, hf, hfind, hc]; rfl⟩
  | some f => exact ⟨_, _, _, by simp [ufs_open, hf, hfind]; rfl⟩

/-- With valid arguments `ufs_open` fails with `EMFILE` exactly when every slot is in
use. -/
theorem ufs_open_emfile_iff (name : Option String) (flags : Int) (s : UFS)
    (hv : valid_open_args s name flags = true) :
    (ufs_open true name flags s).2 = .error .EMFILE ↔
      ∀ i, i < MAX_FILE_DESCRIPTORS → (s.fds i).used = true := by
  cases name with
  | none => simp [valid_open_args] at hv
  | some nm =>
    obtain ⟨fs, na, p, heq⟩ := ufs_open_valid_reaches_slot nm flags s hv
    rw [heq]
    have hnone := find_free_fd_none s.fds MAX_FILE_DESCRIPTORS 0
    rcases open_slot_result fs s.fds na p flags with ⟨hn, hr⟩ | ⟨n, hn, hr⟩
    · rw [hr]
      simp only [true_iff]
      intro i hi
      exact hnone.1 hn i (Nat.zero_le _) (by omega)
    · rw [hr]
      simp only [reduceCtorEq, false_iff]
      intro hall
      have : find_free_fd s.fds MAX_FILE_DESCRIPTORS 0 = none :=
        hnone.2 (fun k _ hk => hall k (by omega))
      rw [hn] at this
      cases this

/-- With valid arguments, when exactly the slots below `k` are in use, `ufs_open`
returns `k` and takes slot `k`, changing no other slot. -/
theorem ufs_open_next_slot (name : Option String) (flags : Int) (s : UFS) (k : Nat)
    (hv : valid_open_args s name flags = true) (hk : k < MAX_FILE_DESCRIPTORS)
    (hused : ∀ i, i < k → (s.fds i).used = true) (hfree : (s.fds k).used = false) :
    (ufs_open true name flags s).2 = .ok (k : Int) ∧
      ((ufs_open true name flags s).1.fds k).used = true ∧
      ∀ j, j ≠ k → (ufs_open true name flags s).1.fds j = s.fds j := by
  cases name with
  | none => simp [valid_open_args] at hv
  | some nm =>
    obtain ⟨fs, na, p, heq⟩ := ufs_open_valid_reaches_slot nm flags s hv
    rw [heq]
    rcases open_slot_result fs s.fds na p flags with ⟨hn, hr⟩ | ⟨n, hn, hr⟩
    · have := (find_free_fd_none s.fds MAX_FILE_DESCRIPTORS 0).1 hn k (Nat.zero_le _)
        (by omega)
      rw [hfree] at this
      cases this
    · obtain ⟨_, _, h3, h4⟩ := find_free_fd_some s.fds _ _ _ hn
      have hnk : n = k := by
        rcases Nat.lt_trichotomy n k with hlt | heq | hgt
        · have := hused n hlt
          rw [h3] at this; cases this
        · exact heq
        · have := h4 k (Nat.zero_le _) hgt
          rw [hfree] at this; cases this
      subst hnk
      rw [hr]
      exact ⟨rfl, by simp [set_fd], fun j hj => by simp [set_fd, hj]⟩

theorem open_all_append (l1 l2 : List (Option String × Int)) :
    ∀ s, (open_all (l1 ++ l2) s).2
      = (open_all l1 s).2 ++ (open_all l2 (open_all l1 s).1).2 := by
  induction l1 with
  | nil => intro s; simp [open_all]
  | cons a rest ih =>
    intro s
    obtain ⟨name, flags⟩ := a
    simp [open_all, ih]

theorem valid_open_seq_append (l1 l2 : List (Option String × Int)) :
    ∀ s, valid_open_seq (l1 ++ l2) s = true →
      valid_open_seq l1 s = true ∧ valid_open_seq l2 (open_all l1 s).1 = true := by
  induction l1 with
  | nil => intro s h; simpa [valid_open_seq, open_all] using h
  | cons a rest ih =>
    intro s h
    obtain ⟨name, flags⟩ := a
    simp only [List.cons_append, valid_open_seq, Bool.and_eq_true] at h
    obtain ⟨h1, h2⟩ := h
    obtain ⟨h3, h4⟩ := ih _ h2
    simp only [valid_open_seq, Bool.and_eq_true, open_all]
    exact ⟨⟨h1, h3⟩, h4⟩

/-- Consecutive valid opens starting with exactly the slots below `k` in use return
`k`, `k + 1`, ... and leave exactly the slots below `k + n` in use. -/
theorem open_all_ids (reqs : List (Option String × Int)) :
    ∀ (s : UFS) (k : Nat), k + reqs.length ≤ MAX_FILE_DESCRIPTORS →
      valid_open_seq reqs s = true →
      (∀ i, i < k → (s.fds i).used = true) →
      (∀ i, k ≤ i → i < MAX_FILE_DESCRIPTORS → (s.fds i).used = false) →
      (open_all reqs s).2
          = (List.range' k reqs.length).map
              (fun (i : Nat) => (Except.ok (i : Int) : Except Errno Int)) ∧
        (∀ i, i < k + reqs.length → ((open_all reqs s).1.fds i).used = true) ∧
        (∀ i, k + reqs.length ≤ i → i < MAX_FILE_DESCRIPTORS →
          ((open_all reqs s).1.fds i).used = false) := by
  induction reqs with
  | nil =>
    intro s k _ _ hu hf
    exact ⟨by simp [open_all], by simpa [open_all] using hu, by simpa [open_all] using hf⟩
  | cons a rest ih =>
    intro s k hk hv hu hf
    obtain ⟨name, flags⟩ := a
    simp only [valid_open_seq, Bool.and_eq_true] at hv
    simp only [List.length_cons] at hk
    obtain ⟨hv1, hv2⟩ := hv
    obtain ⟨h1, h2, h3⟩ := ufs_open_next_slot name flags s k hv1 (by omega) hu
      (hf k (le_refl _) (by omega))
    have hu2 : ∀ i, i < k + 1 → ((ufs_open true name flags s).1.fds i).used = true := by
      intro i hi
      by_cases hik : i = k
      · rw [hik]; exact h2
      · rw [h3 i hik]; exact hu i (by omega)
    have hf2 : ∀ i, k + 1 ≤ i → i < MAX_FILE_DESCRIPTORS →
        ((ufs_open true name flags s).1.fds i).used = false := by
      intro i hi1 hi2
      rw [h3 i (by omega)]
      exact hf i (by omega) hi2
    obtain ⟨r1, r2, r3⟩ := ih _ (k + 1) (by omega) hv2 hu2 hf2
    refine ⟨?_, ?_, ?_⟩
    · simp only [open_all, List.length_cons, List.range'_succ, List.map_cons, r1, h1]
    · intro i hi
      exact r2 i (by simp only [List.length_cons] at hi; omega)
    · intro i hi1 hi2
      exact r3 i (by simp only [List.length_cons] at hi1; omega) hi2

/-- C8: starting from a descriptor table with all `MAX_FILE_DESCRIPTORS` slots free,
256 consecutive calls of `ufs_open` with valid arguments (and `malloc` succeeding)
return 0, 1, ..., 255 in that order and the 257th call fails with `EMFILE`; and in any
state a call with valid arguments fails with `EMFILE` exactly when all 256 slots are in
use. -/
theorem ufs_open_capacity (s : UFS) (reqs : List (Option String × Int))
    (last : Option String × Int)
    (hfree : ∀ i, i < MAX_FILE_DESCRIPTORS → (s.fds i).used = false)
    (hlen : reqs.length = 256)
    (hvalid : valid_open_seq (reqs ++ [last]) s = true) :
    (open_all (reqs ++ [last]) s).2
        = (List.range 256).map (fun (i : Nat) => (Except.ok (i : Int) : Except Errno Int))
          ++ [.error .EMFILE] ∧
      ∀ (t : UFS) (name : Option String) (flags : Int),
        valid_open_args t name flags = true →
        ((ufs_open true name flags t).2 = .error .EMFILE ↔
          ∀ i, i < MAX_FILE_DESCRIPTORS → (t.fds i).used = true) := by
  refine ⟨?_, fun t name flags hv => ufs_open_emfile_iff name flags t hv⟩
  obtain ⟨hv1, hv2⟩ := valid_open_seq_append reqs [last] s hvalid
  obtain ⟨r1, r2, _⟩ := open_all_ids reqs s 0 (by rw [hlen]; decide) hv1
    (fun i hi => absurd hi (Nat.not_lt_zero _)) (fun i _ hi => hfree i hi)
  obtain ⟨name, flags⟩ := last
  simp only [valid_open_seq, Bool.and_eq_true, and_true] at hv2
  have hall : ∀ i, i < MAX_FILE_DESCRIPTORS → ((open_all reqs s).1.fds i).used = true := by
    intro i hi
    exact r2 i (by rw [hlen]; simpa [MAX_FILE_DESCRIPTORS] using hi)
  have hlast : (open_all [(name, flags)] (open_all reqs s).1).2 = [.error .EMFILE] := by
    simp [open_all, (ufs_open_emfile_iff name flags _ hv2).2 hall]
  rw [open_all_append, r1, hlen, List.range_eq_range', hlast]

theorem valid_open_seq_replicate_create (nm : String) (flags : Int)
    (hf : Int.land flags ANY_FLAG ≠ 0) (hc : Int.land flags UFS_CREATE ≠ 0) :
    ∀ (n : Nat) (s : UFS), valid_open_seq (List.replicate n (some nm, flags)) s = true := by
  intro n
  induction n with
  | zero => intro s; rfl
  | succ n ih =>
    intro s
    simp [List.replicate_succ, valid_open_seq, valid_open_args, hf, hc, ih]

/-- C8, witness: on the empty file system, 257 calls `ufs_open("a", Create | Read)`. -/
theorem ufs_open_capacity_witness :
    (open_all (List.replicate 256 (some "a", 5) ++ [(some "a", 5)]) ufs_init).2
        = (List.range 256).map (fun (i : Nat) => (Except.ok (i : Int) : Except Errno Int))
          ++ [.error .EMFILE] ∧
      ∀ (t : UFS) (name : Option String) (flags : Int),
        valid_open_args t name flags = true →
        ((ufs_open true name flags t).2 = .error .EMFILE ↔
          ∀ i, i < MAX_FILE_DESCRIPTORS → (t.fds i).used = true) :=
  ufs_open_capacity ufs_init (List.replicate 256 (some "a", 5)) (some "a", 5)
    (fun _ _ => rfl) (List.length_replicate _ _)
    (by
      have h := valid_open_seq_replicate_create "a" 5 (by decide) (by decide) 257 ufs_init
      rw [List.replicate_succ' 256] at h
      exact h)

/-! ## The round trip above `BLOCK_SIZE`, and reading after `ufs_resize` -/

set_option maxRecDepth 100000 in
/-- C1, at the failing input: for the 257 bytes `B` made of 256 bytes `65` and one byte
`66`, written with one `ufs_write` call to the new file `"a"` of the empty file system,
`ufs_write` returns 257, and after closing and reopening with Read, `ufs_read` for 257
bytes returns 256 bytes, namely `66` followed by 255 zero bytes: neither the count nor
the bytes of `B`.  The file is left with one block, the one of the last round. -/
theorem round_trip_above_block_size :
    (write_file "a" (List.replicate 256 65 ++ [66]) ufs_init).map (fun x => x.2)
        = some (.ok 257) ∧
      ((write_file "a" (List.replicate 256 65 ++ [66]) ufs_init).bind
          (fun x => read_file "a" 257 x.1)).map (fun x => x.2)
        = some (.ok (256, 66 :: List.replicate 255 0)) ∧
      (write_file "a" (List.replicate 256 65 ++ [66]) ufs_init).map
          (fun x => x.1.file_system.map (fun f => (f.size, f.blocks.length)))
        = some [(257, 1)] := by
  decide

/-- C5, at the failing inputs.  A new file resized to 10 bytes: reading 10 bytes returns
0 bytes, not 10 zero bytes.  A file holding `1, 2, 3` resized to 2 and then to 3 bytes:
reading 3 bytes returns `1, 2, 3`, not `1, 2, 0`.  The same file resized to 300 bytes:
reading 300 bytes returns 256 bytes. -/
theorem read_after_resize :
    (read_file "a" 10
        (ufs_resize true "a" 10 (ufs_open true (some "a") UFS_CREATE ufs_init).1).1).map
          (fun x => x.2)
        = some (.ok (0, [])) ∧
      ((write_file "a" [1, 2, 3] ufs_init).bind (fun x =>
          read_file "a" 3 (ufs_resize true "a" 3 (ufs_resize true "a" 2 x.1).1).1)).map
            (fun x => x.2)
        = some (.ok (3, [1, 2, 3])) ∧
      ((write_file "a" [1, 2, 3] ufs_init).bind (fun x =>
          read_file "a" 300 (ufs_resize true "a" 300 x.1).1)).map
            (fun x => x.2.map (fun y => y.1))
        = some (.ok 256) := by
  decide

/-! ## The File Table: names and addresses -/

theorem find_file_eq_none_iff (fs : List File) (name : String) :
    find_file fs name = none ↔ name ∉ fs.map File.name := by
  induction fs with
  | nil => simp [find_file]
  | cons f rest ih =>
    unfold find_file
    by_cases hf : f.name = name
    · simp [hf]
    · rw [if_neg hf, ih]
      have hf2 : ¬ name = f.name := fun h => hf h.symm
      simp [hf2]

theorem find_file_mem (fs : List File) (name : String) (f : File)
    (h : find_file fs name = some f) : f ∈ fs := by
  induction fs with
  | nil => simp [find_file] at h
  | cons g rest ih =>
    unfold find_file at h
    by_cases hg : g.name = name
    · rw [if_pos hg] at h; cases h; exact List.mem_cons_self _ _
    · rw [if_neg hg] at h; exact List.mem_cons_of_mem _ (ih h)

/-- With unique names, every file of the table is the one `find_file` returns for its
name. -/
theorem find_file_of_mem (fs : List File) (hn : (fs.map File.name).Nodup) (f : File)
    (hf : f ∈ fs) : find_file fs f.name = some f := by
  induction fs with
  | nil => cases hf
  | cons g rest ih =>
    rw [List.map_cons, List.nodup_cons] at hn
    unfold find_file
    rcases List.mem_cons.1 hf with h | h
    · subst h; simp
    · have hne : g.name ≠ f.name := by
        intro he
        exact hn.1 (by rw [he]; exact List.mem_map_of_mem _ h)
      rw [if_neg hne]
      exact ih hn.2 h

theorem store_map_name (fs : List File) (p : Nat) (g : File → File)
    (hg : ∀ x, (g x).name = x.name) : (store fs p g).map File.name = fs.map File.name := by
  induction fs with
  | nil => rfl
  | cons f rest ih =>
    unfold store at ih ⊢
    simp only [List.map_cons, ih]
    by_cases h : f.addr = p
    · simp [h, hg]
    · simp [h]

theorem store_map_addr (fs : List File) (p : Nat) (g : File → File)
    (hg : ∀ x, (g x).addr = x.addr) : (store fs p g).map File.addr = fs.map File.addr := by
  induction fs with
  | nil => rfl
  | cons f rest ih =>
    unfold store at ih ⊢
    simp only [List.map_cons, ih]
    by_cases h : f.addr = p
    · simp [h, hg]
    · simp [h]

theorem delete_file_sublist (name : String) :
    ∀ (fs r : List File), delete_file fs name = some r → r.Sublist fs := by
  intro fs
  induction fs with
  | nil => intro r h; simp [delete_file] at h
  | cons f rest ih =>
    intro r h
    unfold delete_file at h
    by_cases hf : f.name = name
    · rw [if_pos hf] at h
      cases h
      exact List.sublist_cons_self _ _
    · rw [if_neg hf] at h
      cases hd : delete_file rest name with
      | none => rw [hd] at h; cases h
      | some r2 =>
        rw [hd] at h
        cases h
        exact List.Sublist.cons₂ _ (ih r2 hd)

theorem delete_file_of_find (name : String) :
    ∀ (fs : List File), find_file fs name ≠ none → ∃ r, delete_file fs name = some r := by
  intro fs
  induction fs with
  | nil => intro h; simp [find_file] at h
  | cons f rest ih =>
    intro h
    unfold find_file at h
    unfold delete_file
    by_cases hf : f.name = name
    · exact ⟨rest, by rw [if_pos hf]⟩
    · rw [if_neg hf] at h
      obtain ⟨r, hr⟩ := ih h
      exact ⟨f :: r, by rw [if_neg hf, hr]; rfl⟩

/-- With unique names, unlinking the first file named `name` leaves no file of that
name. -/
theorem delete_file_find (name : String) :
    ∀ (fs r : List File), (fs.map File.name).Nodup → delete_file fs name = some r →
      find_file r name = none := by
  intro fs
  induction fs with
  | nil => intro r _ h; simp [delete_file] at h
  | cons f rest ih =>
    intro r hn h
    rw [List.map_cons, List.nodup_cons] at hn
    unfold delete_file at h
    by_cases hf : f.name = name
    · rw [if_pos hf] at h
      cases h
      rw [find_file_eq_none_iff, ← hf]
      exact hn.1
    · rw [if_neg hf] at h
      cases hd : delete_file rest name with
      | none => rw [hd] at h; cases h
      | some r2 =>
        rw [hd] at h
        cases h
        unfold find_file
        rw [if_neg hf]
        exact ih r2 hn.2 hd

/-! ## The effect of each operation on the File Table -/

theorem open_slot_next_addr (fs : List File) (fds : Nat → FileDescriptor) (na p : Nat)
    (flags : Int) : (open_slot fs fds na p flags).1.next_addr = na := by
  rcases open_slot_result fs fds na p flags with ⟨_, h⟩ | ⟨n, _, h⟩ <;> rw [h]

/-- The function `ufs_open` leaves the File Table as it is or puts one new, empty file
in front of it, under a name that was not in the table. -/
theorem ufs_open_table (alloc : Bool) (name : Option String) (flags : Int) (s : UFS) :
    ((ufs_open alloc name flags s).1.file_system = s.file_system ∧
        (ufs_open alloc name flags s).1.next_addr = s.next_addr) ∨
      ∃ nm, name = some nm ∧ find_file s.file_system nm = none ∧
        (ufs_open alloc name flags s).1.file_system
          = { addr := s.next_addr, name := nm, size := 0, data := [], blocks := [] }
              :: s.file_system ∧
        (ufs_open alloc name flags s).1.next_addr = s.next_addr + 1 := by
  cases name with
  | none => left; simp [ufs_open]
  | some nm =>
    by_cases hf : Int.land flags ANY_FLAG = 0
    · left; simp [ufs_open, hf]
    · cases hfind : find_file s.file_system nm with
      | none =>
        by_cases hc : Int.land flags UFS_CREATE ≠ 0
        · cases alloc
          · left; simp [ufs_open, hf, hfind, hc]
          · right
            refine ⟨nm, rfl, hfind, ?_, ?_⟩
            · simp [ufs_open, hf, hfind, hc, open_slot_file_system]
            · simp [ufs_open, hf, hfind, hc, open_slot_next_addr]
        · left; simp [ufs_open, hf, hfind, hc]
      | some f =>
        left
        simp [ufs_open, hf, hfind, open_slot_file_system, open_slot_next_addr]

/-- The loop of `ufs_write` ends: `count - written` rounds are enough. -/
theorem write_loop_some (alloc : Nat → Bool) (buf : List Nat) :
    ∀ (fuel : Nat) (blocks : List Block) (offset written k : Nat),
      buf.length - written ≤ fuel →
      ∃ r, write_loop alloc buf fuel blocks offset written k = some r := by
  intro fuel
  induction fuel with
  | zero =>
    intro blocks offset written k h
    have : ¬ written < buf.length := by omega
    simp [write_loop, this]
  | succ fuel ih =>
    intro blocks offset written k h
    unfold write_loop
    by_cases hw : written < buf.length
    · rw [if_pos hw]
      simp only
      cases hc : (write_ensure alloc
          (write_walk alloc (offset / BLOCK_SIZE) blocks (head_ptr blocks) k)).2.1 with
      | none => exact ⟨_, rfl⟩
      | some i =>
        apply ih
        have h256 : offset % BLOCK_SIZE < BLOCK_SIZE := Nat.mod_lt _ (by decide)
        have hmin : 1 ≤ min (BLOCK_SIZE - offset % BLOCK_SIZE) (buf.length - written) := by
          rw [Nat.le_min]; omega
        omega
    · rw [if_neg hw]
      exact ⟨_, rfl⟩

/-- The loop of `ufs_read` ends: `count - read` rounds are enough. -/
theorem read_loop_some (blocks : List Block) (count : Nat) :
    ∀ (fuel offset read : Nat) (out : List Nat), count - read ≤ fuel →
      ∃ r, read_loop blocks count fuel offset read out = some r := by
  intro fuel
  induction fuel with
  | zero =>
    intro offset read out h
    have : ¬ read < count := by omega
    simp [read_loop, this]
  | succ fuel ih =>
    intro offset read out h
    unfold read_loop
    by_cases hw : read < count
    · rw [if_pos hw]
      cases hc : read_walk (offset / BLOCK_SIZE) blocks with
      | none => exact ⟨_, rfl⟩
      | some c =>
        cases c with
        | nil => exact ⟨_, rfl⟩
        | cons b rest =>
          simp only
          apply ih
          have h256 : offset % BLOCK_SIZE < BLOCK_SIZE := Nat.mod_lt _ (by decide)
          have hmin : 1 ≤ min (BLOCK_SIZE - offset % BLOCK_SIZE) (count - read) := by
            rw [Nat.le_min]; omega
          omega
    · rw [if_neg hw]
      exact ⟨_, rfl⟩

/-- The function `ufs_write` changes no file but the one its descriptor points to, and
of that one only the block chain and the size. -/
theorem ufs_write_table (alloc : Nat → Bool) (fd : Int) (buf : List Nat) (s s1 : UFS)
    (r : Except Errno Int) (h : ufs_write alloc fd buf s = some (s1, r)) :
    s1.next_addr = s.next_addr ∧
      (s1.file_system = s.file_system ∨
        ∃ p g, (s.fds fd.toNat).file = some p ∧
          (∀ x : File, (g x).name = x.name ∧ (g x).addr = x.addr ∧ (g x).data = x.data) ∧
          s1.file_system = store s.file_system p g) := by
  unfold ufs_write at h
  split at h
  · cases h; exact ⟨rfl, Or.inl rfl⟩
  · split at h
    · cases h
    · rename_i p hp
      split at h
      · cases h
      · split at h
        · cases h
        · rename_i res _
          split at h
          · cases h
            refine ⟨rfl, Or.inr ⟨p, _, hp, ?_, rfl⟩⟩
            exact fun x => ⟨rfl, rfl, rfl⟩
          · cases h
            refine ⟨rfl, Or.inr ⟨p, _, hp, ?_, rfl⟩⟩
            exact fun x => ⟨rfl, rfl, rfl⟩

theorem ufs_read_table (fd : Int) (count : Nat) (s s1 : UFS)
    (r : Except Errno (Nat × List Nat)) (h : ufs_read fd count s = some (s1, r)) :
    s1.file_system = s.file_system ∧ s1.next_addr = s.next_addr := by
  unfold ufs_read at h
  split at h
  · cases h; exact ⟨rfl, rfl⟩
  · split at h
    · cases h; exact ⟨rfl, rfl⟩
    · split at h
      · cases h
      · split at h
        · cases h
        · split at h
          · cases h
          · cases h; exact ⟨rfl, rfl⟩

theorem ufs_resize_table (alloc : Bool) (name : String) (new_size : Nat) (s : UFS) :
    (ufs_resize alloc name new_size s).1.next_addr = s.next_addr ∧
      ((ufs_resize alloc name new_size s).1.file_system = s.file_system ∨
        ∃ p g, (∀ x : File, (g x).name = x.name ∧ (g x).addr = x.addr ∧
            (g x).blocks = x.blocks) ∧
          (ufs_resize alloc name new_size s).1.file_system = store s.file_system p g) := by
  unfold ufs_resize
  split
  · exact ⟨rfl, Or.inl rfl⟩
  · split
    · exact ⟨rfl, Or.inl rfl⟩
    · split
      · split
        · refine ⟨rfl, Or.inr ⟨_, _, ?_, rfl⟩⟩
          exact fun x => ⟨rfl, rfl, rfl⟩
        · exact ⟨rfl, Or.inl rfl⟩
      · split
        · exact ⟨rfl, Or.inl rfl⟩
        · refine ⟨rfl, Or.inr ⟨_, _, ?_, rfl⟩⟩
          exact fun x => ⟨rfl, rfl, rfl⟩

/-! ## Well-formedness of the reachable states -/

theorem wf_of_store (s s1 : UFS) (p : Nat) (g : File → File) (hw : WF s)
    (hg : ∀ x : File, (g x).name = x.name ∧ (g x).addr = x.addr)
    (hfs : s1.file_system = store s.file_system p g) (hna : s1.next_addr = s.next_addr) :
    WF s1 := by
  refine ⟨?_, ?_, ?_⟩
  · rw [hfs, store_map_name _ _ _ (fun x => (hg x).1)]; exact hw.names
  · rw [hfs, store_map_addr _ _ _ (fun x => (hg x).2)]; exact hw.addrs
  · intro f hf
    have : f.addr ∈ s1.file_system.map File.addr := List.mem_map_of_mem _ hf
    rw [hfs, store_map_addr _ _ _ (fun x => (hg x).2), List.mem_map] at this
    obtain ⟨f0, hf0, he⟩ := this
    rw [hna, ← he]
    exact hw.fresh f0 hf0

theorem wf_of_same_table (s s1 : UFS) (hw : WF s) (hfs : s1.file_system = s.file_system)
    (hna : s1.next_addr = s.next_addr) : WF s1 :=
  ⟨by rw [hfs]; exact hw.names, by rw [hfs]; exact hw.addrs,
    by rw [hfs, hna]; exact hw.fresh⟩

/-- Every reachable state has unique file names and unique file addresses. -/
theorem reachable_wf (s : UFS) (h : Reachable s) : WF s := by
  induction h with
  | init => exact ⟨List.nodup_nil, List.nodup_nil, fun f hf => by cases hf⟩
  | step_open alloc name flags _ ih =>
    rcases ufs_open_table alloc name flags _ with ⟨h1, h2⟩ | ⟨nm, _, hnone, h1, h2⟩
    · exact wf_of_same_table _ _ ih h1 h2
    · refine ⟨?_, ?_, ?_⟩
      · rw [h1, List.map_cons, List.nodup_cons]
        exact ⟨(find_file_eq_none_iff _ _).1 hnone, ih.names⟩
      · rw [h1, List.map_cons, List.nodup_cons]
        refine ⟨?_, ih.addrs⟩
        intro hmem
        obtain ⟨f0, hf0, he⟩ := List.mem_map.1 hmem
        have := ih.fresh f0 hf0
        simp only at he
        omega
      · intro f hf
        rw [h1] at hf
        rw [h2]
        rcases List.mem_cons.1 hf with h | h
        · subst h; simp
        · have := ih.fresh f h
          omega
  | step_write alloc fd buf _ hstep ih =>
    obtain ⟨hna, h | ⟨p, g, _, hg, hfs⟩⟩ := ufs_write_table _ _ _ _ _ _ hstep
    · exact wf_of_same_table _ _ ih h hna
    · exact wf_of_store _ _ p g ih (fun x => ⟨(hg x).1, (hg x).2.1⟩) hfs hna
  | step_read fd count _ hstep ih =>
    obtain ⟨h1, h2⟩ := ufs_read_table _ _ _ _ _ hstep
    exact wf_of_same_table _ _ ih h1 h2
  | step_close fd _ ih =>
    refine wf_of_same_table _ _ ih ?_ ?_ <;>
      · unfold ufs_close
        split <;> rfl
  | step_delete name _ ih =>
    unfold ufs_delete
    split
    · rename_i fs hd
      have hsub := delete_file_sublist name _ _ hd
      exact ⟨(hsub.map File.name).nodup ih.names, (hsub.map File.addr).nodup ih.addrs,
        fun f hf => ih.fresh f (hsub.subset hf)⟩
    · exact ih
  | step_resize alloc name new_size _ ih =>
    obtain ⟨hna, h | ⟨p, g, hg, hfs⟩⟩ := ufs_resize_table alloc name new_size _
    · exact wf_of_same_table _ _ ih h hna
    · exact wf_of_store _ _ p g ih (fun x => ⟨(hg x).1, (hg x).2.1⟩) hfs hna

/-! ## `ufs_delete` -/

/-- C3 (amended): in every reachable state and for every name in the File Table,
`ufs_delete name` returns 0, no file of that name is left in the table, and a following
`ufs_open` of the name with flags that contain Read or Write and not Create fails with
`ENOENT`, leaving the state as it is. -/
theorem ufs_delete_then_open (s : UFS) (hr : Reachable s) (name : String)
    (hp : find_file s.file_system name ≠ none) (alloc : Bool) (flags : Int)
    (hflags : Int.land flags UFS_READ ≠ 0 ∨ Int.land flags UFS_WRITE ≠ 0)
    (hc : Int.land flags UFS_CREATE = 0) :
    (ufs_delete name s).2 = .ok 0 ∧
      find_file (ufs_delete name s).1.file_system name = none ∧
      ufs_open alloc (some name) flags (ufs_delete name s).1
        = ((ufs_delete name s).1, .error .ENOENT) := by
  obtain ⟨r, hd⟩ := delete_file_of_find name s.file_system hp
  have hnone : find_file r name = none :=
    delete_file_find name s.file_system r (reachable_wf s hr).names hd
  have hdel : ufs_delete name s = ({ s with file_system := r }, .ok 0) := by
    simp [ufs_delete, hd]
  have hf : ¬ Int.land flags ANY_FLAG = 0 := by
    rw [land_any_flag]
    rintro ⟨h1, h2, _⟩
    rcases hflags with h | h
    · exact h h1
    · exact h h2
  rw [hdel]
  refine ⟨rfl, hnone, ?_⟩
  simp [ufs_open, hf, hnone, hc]

/-- C3, witness: the file `"a"` created on the empty file system, deleted and reopened
with Read. -/
theorem ufs_delete_then_open_witness :
    Reachable (ufs_open true (some "a") 6 ufs_init).1 ∧
      find_file (ufs_open true (some "a") 6 ufs_init).1.file_system "a" ≠ none ∧
      (ufs_delete "a" (ufs_open true (some "a") 6 ufs_init).1).2 = .ok 0 ∧
      find_file (ufs_delete "a" (ufs_open true (some "a") 6 ufs_init).1).1.file_system "a"
        = none ∧
      ufs_open true (some "a") 1 (ufs_delete "a" (ufs_open true (some "a") 6 ufs_init).1).1
        = ((ufs_delete "a" (ufs_open true (some "a") 6 ufs_init).1).1, .error .ENOENT) :=
  ⟨Reachable.step_open true (some "a") 6 Reachable.init, by decide,
    ufs_delete_then_open _ (Reachable.step_open true (some "a") 6 Reachable.init) "a"
      (by decide) true 1 (Or.inl (by decide)) (by decide)⟩

/-- C3, counterexample: the file `"a"` created on the empty file system and deleted;
the flags `0` do not contain Create, and `ufs_open` with them fails with `EINVAL`, not
`ENOENT`. -/
theorem ufs_delete_then_open_no_flags :
    Reachable (ufs_open true (some "a") 6 ufs_init).1 ∧
      find_file (ufs_open true (some "a") 6 ufs_init).1.file_system "a" ≠ none ∧
      (ufs_delete "a" (ufs_open true (some "a") 6 ufs_init).1).2 = .ok 0 ∧
      Int.land 0 UFS_CREATE = 0 ∧
      (ufs_open true (some "a") 0
          (ufs_delete "a" (ufs_open true (some "a") 6 ufs_init).1).1).2 = .error .EINVAL ∧
      (ufs_open true (some "a") 0
          (ufs_delete "a" (ufs_open true (some "a") 6 ufs_init).1).1).2 ≠ .error .ENOENT :=
  ⟨Reachable.step_open true (some "a") 6 Reachable.init, by decide, by decide, by decide,
    by decide, by decide⟩

/-! ## Pointers to files in well-formed tables -/

theorem store_of_fresh (g : File → File) (p : Nat) :
    ∀ fs : List File, (∀ f ∈ fs, f.addr ≠ p) → store fs p g = fs := by
  intro fs
  induction fs with
  | nil => intro _; rfl
  | cons f rest ih =>
    intro h
    unfold store at ih ⊢
    rw [List.map_cons, if_neg (h f (List.mem_cons_self _ _)),
      ih (fun x hx => h x (List.mem_cons_of_mem _ hx))]

/-- With unique addresses, the address of a file of the table points to that file. -/
theorem deref_of_mem (fs : List File) (ha : (fs.map File.addr).Nodup) (f : File)
    (hf : f ∈ fs) : deref fs f.addr = some f := by
  induction fs with
  | nil => cases hf
  | cons g rest ih =>
    rw [List.map_cons, List.nodup_cons] at ha
    unfold deref at ih ⊢
    rcases List.mem_cons.1 hf with h | h
    · subst h; simp
    · have hne : g.addr ≠ f.addr := by
        intro he
        exact ha.1 (by rw [he]; exact List.mem_map_of_mem _ h)
      rw [List.find?_cons_of_neg _ (by simpa using hne)]
      exact ih ha.2 h

theorem deref_mem (fs : List File) (p : Nat) (f : File) (h : deref fs p = some f) :
    f ∈ fs ∧ f.addr = p := by
  unfold deref at h
  exact ⟨List.mem_of_find?_eq_some h, by simpa using List.find?_some h⟩

/-- With unique addresses, a store through `p` changes the file at `p` and no other:
a file at another address is still found under its name. -/
theorem find_file_store_other (fs : List File) (hn : (fs.map File.name).Nodup) (p : Nat)
    (g : File → File) (hg : ∀ x, (g x).name = x.name) (f : File) (hf : f ∈ fs)
    (hp : f.addr ≠ p) : find_file (store fs p g) f.name = some f := by
  induction fs with
  | nil => cases hf
  | cons x rest ih =>
    rw [List.map_cons, List.nodup_cons] at hn
    unfold store at ih ⊢
    rw [List.map_cons]
    unfold find_file
    rcases List.mem_cons.1 hf with h | h
    · subst h
      simp [hp]
    · have hne : x.name ≠ f.name := by
        intro he
        exact hn.1 (by rw [he]; exact List.mem_map_of_mem _ h)
      have hne2 : (if x.addr = p then g x else x).name ≠ f.name := by
        by_cases hx : x.addr = p
        · rw [if_pos hx, hg]; exact hne
        · rw [if_neg hx]; exact hne
      rw [if_neg hne2]
      exact ih hn.2 h

theorem set_fd_self (fds : Nat → FileDescriptor) (i : Nat) : set_fd fds i (fds i) = fds := by
  funext j
  unfold set_fd
  by_cases h : j = i
  · rw [if_pos h, h]
  · rw [if_neg h]

/-! ## `ufs_write` and `ufs_read` through a valid descriptor -/

/-- The function `ufs_write` through a descriptor in use, with Write access, whose file
pointer is valid: the loop ends, and the call stores the chain the loop built (and,
unless `malloc` failed, the new size) in the file and the new offset in the slot. -/
theorem ufs_write_good (alloc : Nat → Bool) (fd : Int) (buf : List Nat) (s : UFS)
    (p : Nat) (file : File) (hb : bad_fd s fd = false)
    (hm : Int.land (s.fds fd.toNat).mode UFS_WRITE ≠ 0)
    (hp : (s.fds fd.toNat).file = some p) (hd : deref s.file_system p = some file) :
    ∃ r, write_loop alloc buf buf.length file.blocks (s.fds fd.toNat).offset 0 0 = some r ∧
      ufs_write alloc fd buf s
        = some ({ s with
                  file_system := store s.file_system p (fun f =>
                    { f with blocks := r.blocks
                             size := if r.enomem then f.size
                                     else if r.offset > f.size then r.offset else f.size })
                  fds := set_fd s.fds fd.toNat { s.fds fd.toNat with offset := r.offset } },
                if r.enomem then .error .ENOMEM else .ok (r.written : Int)) := by
  obtain ⟨r, hr⟩ := write_loop_some alloc buf buf.length file.blocks
    (s.fds fd.toNat).offset 0 0 (by omega)
  refine ⟨r, hr, ?_⟩
  unfold ufs_write
  simp only [hb, hm, decide_False, Bool.or_self, Bool.false_eq_true, if_false, hp, hd, hr]
  cases he : r.enomem <;> simp

/-- The function `ufs_read` through a descriptor in use, with Read access, whose file
pointer is valid: the loop ends, and the call returns what the loop counted and copied
and stores the new offset in the slot. -/
theorem ufs_read_good (fd : Int) (count : Nat) (s : UFS) (p : Nat) (file : File)
    (hb : bad_fd s fd = false) (hm : Int.land (s.fds fd.toNat).mode UFS_READ ≠ 0)
    (hp : (s.fds fd.toNat).file = some p) (hd : deref s.file_system p = some file) :
    ∃ r, read_loop file.blocks count count (s.fds fd.toNat).offset 0 [] = some r ∧
      ufs_read fd count s
        = some ({ s with
                  fds := set_fd s.fds fd.toNat { s.fds fd.toNat with offset := r.offset } },
                .ok (r.read, r.out)) := by
  obtain ⟨r, hr⟩ := read_loop_some file.blocks count count (s.fds fd.toNat).offset 0 []
    (by omega)
  refine ⟨r, hr, ?_⟩
  unfold ufs_read
  simp only [hb, hm, decide_False, Bool.or_self, Bool.false_eq_true, if_false]
  by_cases hc : count = 0
  · subst hc
    simp only [read_loop, Nat.lt_irrefl, if_false, Option.some.injEq] at hr
    subst hr
    simp only [if_true]
    have : ({ s.fds fd.toNat with offset := (s.fds fd.toNat).offset } : FileDescriptor)
        = s.fds fd.toNat := rfl
    rw [this, set_fd_self]
  · simp only [hc, if_false, hp, hd, hr]

/-! ## Files written one after the other -/

theorem open_slot_zero (fs : List File) (fds : Nat → FileDescriptor) (na p : Nat)
    (flags : Int) (h : (fds 0).used = false) :
    open_slot fs fds na p flags
      = ({ file_system := fs
           fds := set_fd fds 0
             { file := some p, offset := 0, mode := Int.land flags ACCESS_FLAGS,
               used := true }
           next_addr := na }, .ok 0) := by
  have h256 : MAX_FILE_DESCRIPTORS = 255 + 1 := rfl
  have hfind : find_free_fd fds MAX_FILE_DESCRIPTORS 0 = some 0 := by
    rw [h256, find_free_fd, if_pos h]
  unfold open_slot
  rw [hfind]
  rfl

theorem ufs_close_good (fd : Int) (s : UFS) (hb : bad_fd s fd = false) :
    ufs_close fd s
      = ({ s with fds := set_fd s.fds fd.toNat { s.fds fd.toNat with used := false } },
          .ok 0) := by
  simp [ufs_close, hb]

theorem bad_fd_zero (s : UFS) (h : (s.fds 0).used = true) : bad_fd s 0 = false := by
  simp [bad_fd, h, MAX_FILE_DESCRIPTORS]

/-- On a state with slot 0 free, `write_file` of a name that is not in the table puts
one new file in front of the table, whose chain is the one the loop of `ufs_write`
builds from the empty chain at offset 0, and leaves slot 0 free. -/
theorem write_file_new (nm : String) (c : List Nat) (s : UFS) (hi : Idle s)
    (hn : find_file s.file_system nm = none) :
    ∃ r s1 ret sz, write_loop (fun _ => true) c c.length [] 0 0 0 = some r ∧
      write_file nm c s = some (s1, ret) ∧
      s1.file_system
        = { addr := s.next_addr, name := nm, size := sz, data := [], blocks := r.blocks }
            :: s.file_system ∧
      s1.next_addr = s.next_addr + 1 ∧ (s1.fds 0).used = false := by
  have hopen : ufs_open true (some nm) CREATE_WRITE s
      = ({ file_system :=
             { addr := s.next_addr, name := nm, size := 0, data := [], blocks := [] }
               :: s.file_system
           fds := set_fd s.fds 0
             { file := some s.next_addr, offset := 0,
               mode := Int.land CREATE_WRITE ACCESS_FLAGS, used := true }
           next_addr := s.next_addr + 1 }, .ok 0) := by
    have h1 : ¬ Int.land CREATE_WRITE ANY_FLAG = 0 := by decide
    have h2 : Int.land CREATE_WRITE UFS_CREATE ≠ 0 := by decide
    simp only [ufs_open, h1, if_false, hn, h2, ne_eq, not_false_eq_true, if_true]
    exact open_slot_zero _ _ _ _ _ hi.slot
  have hfresh : ∀ f ∈ s.file_system, f.addr ≠ s.next_addr := fun f hf => by
    have := hi.wf.fresh f hf
    omega
  generalize hs0 : (ufs_open true (some nm) CREATE_WRITE s).1 = s0
  have hs0fs : s0.file_system
      = { addr := s.next_addr, name := nm, size := 0, data := [], blocks := [] }
          :: s.file_system := by rw [← hs0, hopen]
  have hs0na : s0.next_addr = s.next_addr + 1 := by rw [← hs0, hopen]
  have hfd0 : s0.fds 0
      = { file := some s.next_addr, offset := 0
          mode := Int.land CREATE_WRITE ACCESS_FLAGS, used := true } := by
    rw [← hs0, hopen]; simp [set_fd]
  have htn : (0 : Int).toNat = 0 := rfl
  obtain ⟨r, hr, hw⟩ := ufs_write_good (fun _ => true) 0 c s0 s.next_addr
    { addr := s.next_addr, name := nm, size := 0, data := [], blocks := [] }
    (bad_fd_zero s0 (by rw [hfd0]))
    (by rw [htn, hfd0]
        exact (by decide : Int.land (Int.land CREATE_WRITE ACCESS_FLAGS) UFS_WRITE ≠ 0))
    (by rw [htn, hfd0])
    (by rw [hs0fs]; simp [deref])
  rw [htn, hfd0] at hr hw
  simp only at hr
  have hstore : store s0.file_system s.next_addr (fun f =>
      { f with blocks := r.blocks
               size := if r.enomem then f.size
                       else if r.offset > f.size then r.offset else f.size })
      = { addr := s.next_addr, name := nm
          size := if r.enomem then 0 else if r.offset > 0 then r.offset else 0
          data := [], blocks := r.blocks } :: s.file_system := by
    rw [hs0fs]
    have := store_of_fresh (fun f : File =>
      { f with blocks := r.blocks
               size := if r.enomem then f.size
                       else if r.offset > f.size then r.offset else f.size })
      s.next_addr s.file_system hfresh
    unfold store at this ⊢
    rw [List.map_cons, this]
    simp
  rw [hstore] at hw
  have hwf : write_file nm c s
      = some ((ufs_close 0
          { s0 with
            file_system := { addr := s.next_addr, name := nm
                             size := if r.enomem then 0
                                     else if r.offset > 0 then r.offset else 0
                             data := [], blocks := r.blocks } :: s.file_system
            fds := set_fd s0.fds 0
              { file := some s.next_addr, offset := r.offset,
                mode := Int.land CREATE_WRITE ACCESS_FLAGS, used := true } }).1,
          if r.enomem then .error .ENOMEM else .ok (r.written : Int)) := by
    have h2 : (ufs_open true (some nm) CREATE_WRITE s).2 = .ok 0 := by rw [hopen]
    unfold write_file
    rw [hs0, h2]
    simp only
    rw [hw]
  rw [ufs_close_good _ _ (bad_fd_zero _ (by simp [set_fd]))] at hwf
  exact ⟨r, _, _, _, hr, hwf, rfl, hs0na, by simp [set_fd]⟩

/-- On a state with slot 0 free, `read_file` of a name that is in the table returns what
the loop of `ufs_read` counts and copies from the chain of that file at offset 0, and
leaves the File Table as it is and slot 0 free. -/
theorem read_file_present (nm : String) (count : Nat) (s : UFS) (f : File) (hi : Idle s)
    (hf : find_file s.file_system nm = some f) :
    ∃ r s1, read_loop f.blocks count count 0 0 [] = some r ∧
      read_file nm count s = some (s1, .ok (r.read, r.out)) ∧
      s1.file_system = s.file_system ∧ s1.next_addr = s.next_addr ∧
      (s1.fds 0).used = false := by
  have hopen : ufs_open true (some nm) UFS_READ s
      = ({ file_system := s.file_system
           fds := set_fd s.fds 0
             { file := some f.addr, offset := 0,
               mode := Int.land UFS_READ ACCESS_FLAGS, used := true }
           next_addr := s.next_addr }, .ok 0) := by
    have h1 : ¬ Int.land UFS_READ ANY_FLAG = 0 := by decide
    simp only [ufs_open, h1, if_false, hf]
    exact open_slot_zero _ _ _ _ _ hi.slot
  generalize hs0 : (ufs_open true (some nm) UFS_READ s).1 = s0
  have hs0fs : s0.file_system = s.file_system := by rw [← hs0, hopen]
  have hs0na : s0.next_addr = s.next_addr := by rw [← hs0, hopen]
  have hfd0 : s0.fds 0
      = { file := some f.addr, offset := 0
          mode := Int.land UFS_READ ACCESS_FLAGS, used := true } := by
    rw [← hs0, hopen]; simp [set_fd]
  have htn : (0 : Int).toNat = 0 := rfl
  obtain ⟨r, hr, hw⟩ := ufs_read_good 0 count s0 f.addr f
    (bad_fd_zero s0 (by rw [hfd0]))
    (by rw [htn, hfd0]
        exact (by decide : Int.land (Int.land UFS_READ ACCESS_FLAGS) UFS_READ ≠ 0))
    (by rw [htn, hfd0])
    (by rw [hs0fs]; exact deref_of_mem _ hi.wf.addrs f (find_file_mem _ _ _ hf))
  rw [htn, hfd0] at hr hw
  simp only at hr
  have hrf : read_file nm count s
      = some ((ufs_close 0
          { s0 with
            fds := set_fd s0.fds 0
              { file := some f.addr, offset := r.offset
                mode := Int.land UFS_READ ACCESS_FLAGS, used := true } }).1,
          .ok (r.read, r.out)) := by
    have h2 : (ufs_open true (some nm) UFS_READ s).2 = .ok 0 := by rw [hopen]
    unfold read_file
    rw [hs0, h2]
    simp only
    rw [hw]
  rw [ufs_close_good _ _ (bad_fd_zero _ (by simp [set_fd]))] at hrf
  exact ⟨r, _, hr, hrf, hs0fs, hs0na, by simp [set_fd]⟩

theorem idle_init : Idle ufs_init :=
  ⟨⟨List.nodup_nil, List.nodup_nil, fun f hf => by cases hf⟩, rfl⟩

/-- Writing files under pairwise distinct new names, one after the other: the calls have
defined behaviour, the files that were there stay as they were, and each new file holds
the chain built for its own content. -/
theorem write_files_holds (files : List (String × List Nat)) :
    ∀ s : UFS, Idle s → (∀ x ∈ files, find_file s.file_system x.1 = none) →
      (files.map Prod.fst).Nodup →
      ∃ s1, write_files files s = some s1 ∧ Idle s1 ∧
        (∀ nm f, find_file s.file_system nm = some f →
          find_file s1.file_system nm = some f) ∧
        ∀ x ∈ files, holds_content s1 x := by
  induction files with
  | nil =>
    intro s hi _ _
    exact ⟨s, rfl, hi, fun _ _ h => h, fun x hx => by cases hx⟩
  | cons a rest ih =>
    intro s hi hnew hnd
    obtain ⟨nm, c⟩ := a
    rw [List.map_cons, List.nodup_cons] at hnd
    have hn : find_file s.file_system nm = none := hnew (nm, c) (List.mem_cons_self _ _)
    obtain ⟨r, s1, ret, sz, hr, hwf, hfs, hna, hslot⟩ := write_file_new nm c s hi hn
    have hi1 : Idle s1 := by
      refine ⟨⟨?_, ?_, ?_⟩, hslot⟩
      · rw [hfs, List.map_cons, List.nodup_cons]
        exact ⟨(find_file_eq_none_iff _ _).1 hn, hi.wf.names⟩
      · rw [hfs, List.map_cons, List.nodup_cons]
        refine ⟨?_, hi.wf.addrs⟩
        intro hmem
        obtain ⟨f0, hf0, he⟩ := List.mem_map.1 hmem
        have := hi.wf.fresh f0 hf0
        simp only at he
        omega
      · intro f hf
        rw [hfs] at hf
        rw [hna]
        rcases List.mem_cons.1 hf with h | h
        · subst h; simp
        · have := hi.wf.fresh f h
          omega
    have hkeep : ∀ n f, find_file s.file_system n = some f →
        find_file s1.file_system n = some f := by
      intro n f hf
      have hne : nm ≠ n := by
        intro he
        rw [← he, hn] at hf
        cases hf
      rw [hfs]
      simp only [find_file, hne, if_false]
      exact hf
    have hnew1 : ∀ x ∈ rest, find_file s1.file_system x.1 = none := by
      intro x hx
      have hne : nm ≠ x.1 := by
        intro he
        have hm : x.1 ∈ rest.map Prod.fst := List.mem_map_of_mem Prod.fst hx
        rw [← he] at hm
        exact hnd.1 hm
      rw [hfs]
      simp only [find_file, hne, if_false]
      exact hnew x (List.mem_cons_of_mem _ hx)
    obtain ⟨s2, hw2, hi2, hkeep2, hall2⟩ := ih s1 hi1 hnew1 hnd.2
    refine ⟨s2, ?_, hi2, fun n f hf => hkeep2 n f (hkeep n f hf), ?_⟩
    · simp only [write_files, hwf, hw2]
    · intro x hx
      rcases List.mem_cons.1 hx with h | h
      · subst h
        have hhead : find_file s1.file_system nm
            = some { addr := s.next_addr, name := nm, size := sz, data := []
                     blocks := r.blocks } := by
          rw [hfs]
          simp [find_file]
        exact ⟨_, r, hkeep2 nm _ hhead, hr, rfl⟩
      · exact hall2 x h

/-- What `read_alone` returns: the result of the read loop on the chain the write loop
builds for the content. -/
theorem read_alone_eq (nm : String) (c : List Nat) :
    ∃ r q, write_loop (fun _ => true) c c.length [] 0 0 0 = some r ∧
      read_loop r.blocks c.length c.length 0 0 [] = some q ∧
      read_alone nm c = some (.ok (q.read, q.out)) := by
  obtain ⟨r, s1, ret, sz, hr, hwf, hfs, hna, hslot⟩ :=
    write_file_new nm c ufs_init idle_init rfl
  have hi1 : Idle s1 := by
    refine ⟨⟨?_, ?_, ?_⟩, hslot⟩
    · rw [hfs]; simp [ufs_init]
    · rw [hfs]; simp [ufs_init]
    · intro f hf
      rw [hfs] at hf
      rw [hna]
      simp only [ufs_init, List.mem_singleton] at hf
      subst hf
      simp [ufs_init]
  have hfind : find_file s1.file_system nm
      = some { addr := ufs_init.next_addr, name := nm, size := sz, data := []
               blocks := r.blocks } := by
    rw [hfs]; simp [find_file]
  obtain ⟨q, s2, hq, hrf, _, _, _⟩ := read_file_present nm c.length s1 _ hi1 hfind
  refine ⟨r, q, hr, hq, ?_⟩
  simp only [read_alone, hwf, hrf, Option.map_some']

/-- Reading files back one after the other, in any order and any number of times, from
a state in which each holds the chain built for its own content: every read returns
what it returns when the file is the only one ever written. -/
theorem read_files_alone (order : List (String × List Nat)) :
    ∀ s : UFS, Idle s → (∀ x ∈ order, holds_content s x) →
      read_files (order.map (fun x => (x.1, x.2.length))) s
        = order.map (fun x => read_alone x.1 x.2) := by
  induction order with
  | nil => intro s _ _; rfl
  | cons a rest ih =>
    intro s hi hall
    obtain ⟨f, r, hf, hr, hb⟩ := hall a (List.mem_cons_self _ _)
    obtain ⟨q, s1, hq, hrf, hfs, hna, hslot⟩ := read_file_present a.1 a.2.length s f hi hf
    obtain ⟨r2, q2, hr2, hq2, hal⟩ := read_alone_eq a.1 a.2
    have hrr : r2 = r := by
      rw [hr] at hr2
      cases hr2
      rfl
    subst hrr
    rw [hb, hq2] at hq
    cases hq
    have hi1 : Idle s1 :=
      ⟨⟨by rw [hfs]; exact hi.wf.names, by rw [hfs]; exact hi.wf.addrs,
        by rw [hfs, hna]; exact hi.wf.fresh⟩, hslot⟩
    have hall1 : ∀ x ∈ rest, holds_content s1 x := by
      intro x hx
      obtain ⟨f2, r3, h1, h2, h3⟩ := hall x (List.mem_cons_of_mem _ hx)
      exact ⟨f2, r3, by rw [hfs]; exact h1, h2, h3⟩
    simp only [List.map_cons, read_files, hrf, hal, ih s1 hi1 hall1]

/-- A write through a descriptor leaves every file the descriptor does not point to as
it is, and adds and removes no file. -/
theorem ufs_write_frame (s : UFS) (hr : Reachable s) (alloc : Nat → Bool) (fd : Int)
    (buf : List Nat) (s1 : UFS) (r : Except Errno Int)
    (h : ufs_write alloc fd buf s = some (s1, r)) :
    s1.file_system.map File.name = s.file_system.map File.name ∧
      ∀ g ∈ s.file_system, (s.fds fd.toNat).file ≠ some g.addr →
        find_file s1.file_system g.name = some g := by
  have hw := reachable_wf s hr
  obtain ⟨_, he | ⟨p, gf, hp, hg, hfs⟩⟩ := ufs_write_table alloc fd buf s s1 r h
  · rw [he]
    exact ⟨rfl, fun g hg _ => find_file_of_mem _ hw.names g hg⟩
  · rw [hfs]
    refine ⟨store_map_name _ _ _ (fun x => (hg x).1), fun g hgm hne => ?_⟩
    refine find_file_store_other _ hw.names p gf (fun x => (hg x).1) g hgm ?_
    intro he
    exact hne (by rw [hp, he])

/-- C2: a `ufs_write` through a descriptor, in any reachable state, adds and removes no
file and leaves every file the descriptor is not bound to exactly as it was (same size,
same blocks, found under the same name).  So, for files with pairwise distinct names
created and written one after the other on the empty file system (a sequence of calls
with defined behaviour), reading the files back afterwards, in any order (and any
number of times), returns for each the count and bytes that reading it returns when it
is the only file ever created and written, and that read does not fail. -/
theorem no_cross_contamination (files : List (String × List Nat))
    (hd : (files.map Prod.fst).Nodup) :
    (∀ (s : UFS) (alloc : Nat → Bool) (fd : Int) (buf : List Nat) (s1 : UFS)
        (r : Except Errno Int), Reachable s → ufs_write alloc fd buf s = some (s1, r) →
        s1.file_system.map File.name = s.file_system.map File.name ∧
          ∀ g ∈ s.file_system, (s.fds fd.toNat).file ≠ some g.addr →
            find_file s1.file_system g.name = some g) ∧
      ∃ s, write_files files ufs_init = some s ∧
        ∀ order : List (String × List Nat), (∀ x ∈ order, x ∈ files) →
          read_files (order.map (fun x => (x.1, x.2.length))) s
              = order.map (fun x => read_alone x.1 x.2) ∧
            ∀ x ∈ order, ∃ n bytes, read_alone x.1 x.2 = some (.ok (n, bytes)) := by
  refine ⟨fun s alloc fd buf s1 r hr h => ufs_write_frame s hr alloc fd buf s1 r h, ?_⟩
  obtain ⟨s, hw, hi, _, hall⟩ := write_files_holds files ufs_init idle_init
    (fun _ _ => rfl) hd
  refine ⟨s, hw, fun order hsub => ⟨?_, fun x _ => ?_⟩⟩
  · exact read_files_alone order s hi (fun x hx => hall x (hsub x hx))
  · obtain ⟨r, q, _, _, h⟩ := read_alone_eq x.1 x.2
    exact ⟨q.read, q.out, h⟩

/-- C2, witness: the three files of `test_multiple_files` ("Hello", "World", "Test"),
read back in the order third, first, second. -/
theorem no_cross_contamination_witness :
    ([("file1.txt", [72, 101, 108, 108, 111]), ("file2.txt", [87, 111, 114, 108, 100]),
        ("file3.txt", [84, 101, 115, 116])].map Prod.fst).Nodup ∧
      ∃ s, write_files [("file1.txt", [72, 101, 108, 108, 111]),
          ("file2.txt", [87, 111, 114, 108, 100]), ("file3.txt", [84, 101, 115, 116])]
          ufs_init = some s ∧
        read_files [("file3.txt", 4), ("file1.txt", 5), ("file2.txt", 5)] s
          = [some (.ok (4, [84, 101, 115, 116])), some (.ok (5, [72, 101, 108, 108, 111])),
              some (.ok (5, [87, 111, 114, 108, 100]))] := by
  refine ⟨by decide, ?_⟩
  obtain ⟨_, s, hw, hread⟩ := no_cross_contamination
    [("file1.txt", [72, 101, 108, 108, 111]), ("file2.txt", [87, 111, 114, 108, 100]),
      ("file3.txt", [84, 101, 115, 116])] (by decide)
  refine ⟨s, hw, ?_⟩
  have h := (hread [("file3.txt", [84, 101, 115, 116]), ("file1.txt", [72, 101, 108, 108, 111]),
    ("file2.txt", [87, 111, 114, 108, 100])] (by decide)).1
  have e1 : read_alone "file3.txt" [84, 101, 115, 116]
      = some (.ok (4, [84, 101, 115, 116])) := by decide
  have e2 : read_alone "file1.txt" [72, 101, 108, 108, 111]
      = some (.ok (5, [72, 101, 108, 108, 111])) := by decide
  have e3 : read_alone "file2.txt" [87, 111, 114, 108, 100]
      = some (.ok (5, [87, 111, 114, 108, 100])) := by decide
  simpa [e1, e2, e3] using h

/-! ## The outcomes of `ufs_write` and `ufs_read` -/

/-- The check at the top of `ufs_write` rejects the descriptor. -/
theorem ufs_write_ebadf (alloc : Nat → Bool) (fd : Int) (buf : List Nat) (s : UFS)
    (h : bad_fd s fd = true ∨ Int.land (s.fds fd.toNat).mode UFS_WRITE = 0) :
    ufs_write alloc fd buf s = some (s, .error .EBADF) := by
  unfold ufs_write
  rcases h with h | h <;> simp [h]

/-- The check at the top of `ufs_read` rejects the descriptor. -/
theorem ufs_read_ebadf (fd : Int) (count : Nat) (s : UFS)
    (h : bad_fd s fd = true ∨ Int.land (s.fds fd.toNat).mode UFS_READ = 0) :
    ufs_read fd count s = some (s, .error .EBADF) := by
  unfold ufs_read
  rcases h with h | h <;> simp [h]

/-- Every defined outcome of `ufs_write`: either the descriptor is rejected and nothing
changes, or the descriptor is in use with Write access, its file pointer is valid, and
the state and return value are those the loop produces. -/
theorem ufs_write_inv (alloc : Nat → Bool) (fd : Int) (buf : List Nat) (s s1 : UFS)
    (r : Except Errno Int) (h : ufs_write alloc fd buf s = some (s1, r)) :
    ((bad_fd s fd = true ∨ Int.land (s.fds fd.toNat).mode UFS_WRITE = 0) ∧
        s1 = s ∧ r = .error .EBADF) ∨
      (bad_fd s fd = false ∧ Int.land (s.fds fd.toNat).mode UFS_WRITE ≠ 0 ∧
        ∃ p file res, (s.fds fd.toNat).file = some p ∧
          deref s.file_system p = some file ∧
          write_loop alloc buf buf.length file.blocks (s.fds fd.toNat).offset 0 0
            = some res ∧
          s1 = { s with
                 file_system := store s.file_system p (fun f =>
                   { f with blocks := res.blocks
                            size := if res.enomem then f.size
                                    else if res.offset > f.size then res.offset
                                    else f.size })
                 fds := set_fd s.fds fd.toNat
                   { s.fds fd.toNat with offset := res.offset } } ∧
          r = if res.enomem then .error .ENOMEM else .ok (res.written : Int)) := by
  by_cases hb : bad_fd s fd = true
  · rw [ufs_write_ebadf alloc fd buf s (Or.inl hb)] at h
    simp only [Option.some.injEq, Prod.mk.injEq] at h
    exact Or.inl ⟨Or.inl hb, h.1.symm, h.2.symm⟩
  · by_cases hm : Int.land (s.fds fd.toNat).mode UFS_WRITE = 0
    · rw [ufs_write_ebadf alloc fd buf s (Or.inr hm)] at h
      simp only [Option.some.injEq, Prod.mk.injEq] at h
      exact Or.inl ⟨Or.inr hm, h.1.symm, h.2.symm⟩
    · have hb2 : bad_fd s fd = false := by simpa using hb
      right
      refine ⟨hb2, hm, ?_⟩
      cases hp : (s.fds fd.toNat).file with
      | none =>
        unfold ufs_write at h
        simp [hb2, hm, hp] at h
      | some p =>
        cases hd : deref s.file_system p with
        | none =>
          unfold ufs_write at h
          simp [hb2, hm, hp, hd] at h
        | some file =>
          obtain ⟨res, hres, heq⟩ := ufs_write_good alloc fd buf s p file hb2 hm hp hd
          rw [heq] at h
          simp only [Option.some.injEq, Prod.mk.injEq] at h
          exact ⟨p, file, res, rfl, hd, hres, h.1.symm, h.2.symm⟩

/-- Every defined outcome of `ufs_read`: either the descriptor is rejected and nothing
changes, or the descriptor is in use with Read access and the call returns what the
loop counts and copies from the chain of the file the descriptor points to (the empty
result when `count = 0`), changing the offset of that slot only. -/
theorem ufs_read_inv (fd : Int) (count : Nat) (s s1 : UFS)
    (r : Except Errno (Nat × List Nat)) (h : ufs_read fd count s = some (s1, r)) :
    ((bad_fd s fd = true ∨ Int.land (s.fds fd.toNat).mode UFS_READ = 0) ∧
        s1 = s ∧ r = .error .EBADF) ∨
      (bad_fd s fd = false ∧ Int.land (s.fds fd.toNat).mode UFS_READ ≠ 0 ∧
        ((count = 0 ∧ s1 = s ∧ r = .ok (0, [])) ∨
          ∃ p file res, (s.fds fd.toNat).file = some p ∧
            deref s.file_system p = some file ∧
            read_loop file.blocks count count (s.fds fd.toNat).offset 0 [] = some res ∧
            s1 = { s with
                   fds := set_fd s.fds fd.toNat
                     { s.fds fd.toNat with offset := res.offset } } ∧
            r = .ok (res.read, res.out))) := by
  by_cases hb : bad_fd s fd = true
  · rw [ufs_read_ebadf fd count s (Or.inl hb)] at h
    simp only [Option.some.injEq, Prod.mk.injEq] at h
    exact Or.inl ⟨Or.inl hb, h.1.symm, h.2.symm⟩
  · by_cases hm : Int.land (s.fds fd.toNat).mode UFS_READ = 0
    · rw [ufs_read_ebadf fd count s (Or.inr hm)] at h
      simp only [Option.some.injEq, Prod.mk.injEq] at h
      exact Or.inl ⟨Or.inr hm, h.1.symm, h.2.symm⟩
    · have hb2 : bad_fd s fd = false := by simpa using hb
      right
      refine ⟨hb2, hm, ?_⟩
      by_cases hc : count = 0
      · left
        unfold ufs_read at h
        simp only [hb2, hm, decide_False, Bool.or_self, Bool.false_eq_true, if_false, hc,
          if_true, Option.some.injEq, Prod.mk.injEq] at h
        exact ⟨hc, h.1.symm, h.2.symm⟩
      · right
        cases hp : (s.fds fd.toNat).file with
        | none =>
          unfold ufs_read at h
          simp [hb2, hm, hp, hc] at h
        | some p =>
          cases hd : deref s.file_system p with
          | none =>
            unfold ufs_read at h
            simp [hb2, hm, hp, hd, hc] at h
          | some file =>
            obtain ⟨res, hres, heq⟩ := ufs_read_good fd count s p file hb2 hm hp hd
            rw [heq] at h
            simp only [Option.some.injEq, Prod.mk.injEq] at h
            exact ⟨p, file, res, rfl, hd, hres, h.1.symm, h.2.symm⟩

/-- The slot a successful `ufs_open` returns, in the state after the call. -/
theorem ufs_open_ok_slot (alloc : Bool) (name : Option String) (flags : Int) (s : UFS)
    (i : Int) (h : (ufs_open alloc name flags s).2 = .ok i) :
    ∃ n : Nat, i = (n : Int) ∧ n < MAX_FILE_DESCRIPTORS ∧
      ((ufs_open alloc name flags s).1.fds n).mode = Int.land flags ACCESS_FLAGS ∧
      ((ufs_open alloc name flags s).1.fds n).offset = 0 ∧
      ((ufs_open alloc name flags s).1.fds n).used = true := by
  cases name with
  | none => simp [ufs_open] at h
  | some nm =>
    obtain ⟨fs, na, f, _, heq⟩ := ufs_open_reaches_slot alloc nm flags s
      (fun e => Or.inl (by rw [h]; simp))
    rw [heq] at h ⊢
    rcases open_slot_result fs s.fds na f.addr flags with ⟨_, hr⟩ | ⟨n, hn, hr⟩
    · rw [hr] at h; simp at h
    · rw [hr] at h ⊢
      have hi : i = (n : Int) := by
        simp only [Except.ok.injEq] at h
        exact h.symm
      obtain ⟨_, h2, _, _⟩ := find_free_fd_some s.fds _ _ _ hn
      exact ⟨n, hi, by omega, by simp [set_fd], by simp [set_fd], by simp [set_fd]⟩

/-- C11: `ufs_write` fails with `EBADF` exactly when `fd` is outside
`[0, MAX_FILE_DESCRIPTORS)`, slot `fd` is not in use or its mode lacks Write, and
`ufs_read` exactly when `fd` is outside the range, the slot is not in use or its mode
lacks Read; a call that fails so leaves the whole state (offsets, sizes, blocks) as it
was.  A descriptor obtained by `ufs_open` with `UFS_CREATE` alone is rejected by both,
and so is a descriptor after a successful `ufs_close`. -/
theorem ufs_write_read_bad_descriptor (alloc : Nat → Bool) (fd : Int) (buf : List Nat)
    (count : Nat) (s : UFS) :
    ((∃ s1, ufs_write alloc fd buf s = some (s1, .error .EBADF)) ↔
        (fd < 0 ∨ fd ≥ (MAX_FILE_DESCRIPTORS : Int) ∨ (s.fds fd.toNat).used = false ∨
          Int.land (s.fds fd.toNat).mode UFS_WRITE = 0)) ∧
      (∀ s1, ufs_write alloc fd buf s = some (s1, .error .EBADF) → s1 = s) ∧
      ((∃ s1, ufs_read fd count s = some (s1, .error .EBADF)) ↔
        (fd < 0 ∨ fd ≥ (MAX_FILE_DESCRIPTORS : Int) ∨ (s.fds fd.toNat).used = false ∨
          Int.land (s.fds fd.toNat).mode UFS_READ = 0)) ∧
      (∀ s1, ufs_read fd count s = some (s1, .error .EBADF) → s1 = s) ∧
      (∀ (a : Bool) (nm : String) (i : Int),
        (ufs_open a (some nm) UFS_CREATE s).2 = .ok i →
        ufs_write alloc i buf (ufs_open a (some nm) UFS_CREATE s).1
            = some ((ufs_open a (some nm) UFS_CREATE s).1, .error .EBADF) ∧
          ufs_read i count (ufs_open a (some nm) UFS_CREATE s).1
            = some ((ufs_open a (some nm) UFS_CREATE s).1, .error .EBADF)) ∧
      ((ufs_close fd s).2 = .ok 0 →
        ufs_write alloc fd buf (ufs_close fd s).1
            = some ((ufs_close fd s).1, .error .EBADF) ∧
          ufs_read fd count (ufs_close fd s).1
            = some ((ufs_close fd s).1, .error .EBADF)) := by
  refine ⟨⟨?_, ?_⟩, ?_, ⟨?_, ?_⟩, ?_, ?_, ?_⟩
  · rintro ⟨s1, h⟩
    rcases ufs_write_inv alloc fd buf s s1 _ h with ⟨hc, _, _⟩ | ⟨_, _, p, file, res, _, _, _, _, hr⟩
    · rcases hc with hc | hc
      · rcases (bad_fd_iff s fd).1 hc with h1 | h1 | h1
        · exact Or.inl h1
        · exact Or.inr (Or.inl h1)
        · exact Or.inr (Or.inr (Or.inl h1))
      · exact Or.inr (Or.inr (Or.inr hc))
    · cases he : res.enomem <;> rw [he] at hr <;> simp at hr
  · intro hc
    refine ⟨s, ufs_write_ebadf alloc fd buf s ?_⟩
    rcases hc with h1 | h1 | h1 | h1
    · exact Or.inl ((bad_fd_iff s fd).2 (Or.inl h1))
    · exact Or.inl ((bad_fd_iff s fd).2 (Or.inr (Or.inl h1)))
    · exact Or.inl ((bad_fd_iff s fd).2 (Or.inr (Or.inr h1)))
    · exact Or.inr h1
  · intro s1 h
    rcases ufs_write_inv alloc fd buf s s1 _ h with ⟨_, h1, _⟩ | ⟨_, _, p, file, res, _, _, _, _, hr⟩
    · exact h1
    · cases he : res.enomem <;> rw [he] at hr <;> simp at hr
  · rintro ⟨s1, h⟩
    rcases ufs_read_inv fd count s s1 _ h with ⟨hc, _, _⟩ | ⟨_, _, h2⟩
    · rcases hc with hc | hc
      · rcases (bad_fd_iff s fd).1 hc with h1 | h1 | h1
        · exact Or.inl h1
        · exact Or.inr (Or.inl h1)
        · exact Or.inr (Or.inr (Or.inl h1))
      · exact Or.inr (Or.inr (Or.inr hc))
    · rcases h2 with ⟨_, _, hr⟩ | ⟨p, file, res, _, _, _, _, hr⟩ <;> simp at hr
  · intro hc
    refine ⟨s, ufs_read_ebadf fd count s ?_⟩
    rcases hc with h1 | h1 | h1 | h1
    · exact Or.inl ((bad_fd_iff s fd).2 (Or.inl h1))
    · exact Or.inl ((bad_fd_iff s fd).2 (Or.inr (Or.inl h1)))
    · exact Or.inl ((bad_fd_iff s fd).2 (Or.inr (Or.inr h1)))
    · exact Or.inr h1
  · intro s1 h
    rcases ufs_read_inv fd count s s1 _ h with ⟨_, h1, _⟩ | ⟨_, _, h2⟩
    · exact h1
    · rcases h2 with ⟨_, _, hr⟩ | ⟨p, file, res, _, _, _, _, hr⟩ <;> simp at hr
  · intro a nm i hi
    obtain ⟨n, hin, _, hmode, _, _⟩ := ufs_open_ok_slot a (some nm) UFS_CREATE s i hi
    have htn : i.toNat = n := by rw [hin]; rfl
    have hw : Int.land ((ufs_open a (some nm) UFS_CREATE s).1.fds i.toNat).mode UFS_WRITE
        = 0 := by
      rw [htn, hmode]; decide
    have hr : Int.land ((ufs_open a (some nm) UFS_CREATE s).1.fds i.toNat).mode UFS_READ
        = 0 := by
      rw [htn, hmode]; decide
    exact ⟨ufs_write_ebadf alloc i buf _ (Or.inr hw), ufs_read_ebadf i count _ (Or.inr hr)⟩
  · intro hc
    have hnb : bad_fd s fd = false := by
      by_contra hb
      simp only [Bool.not_eq_false] at hb
      simp [ufs_close, hb] at hc
    have hb2 : bad_fd (ufs_close fd s).1 fd = true := by
      rw [ufs_close_good fd s hnb]
      simp [bad_fd, set_fd]
    exact ⟨ufs_write_ebadf alloc fd buf _ (Or.inl hb2), ufs_read_ebadf fd count _ (Or.inl hb2)⟩

/-! ## Invariants of the File Table -/

/-- C15: in every state reachable from the empty file system by calls of `ufs_open`,
`ufs_write`, `ufs_read`, `ufs_close`, `ufs_delete` and `ufs_resize` (`ufs_stat` leaves
the state as it is), the names of the files in the table are pairwise distinct: two
files of the table with the same name are the same file. -/
theorem file_names_unique (s : UFS) (h : Reachable s) :
    (s.file_system.map File.name).Nodup ∧
      ∀ f ∈ s.file_system, ∀ g ∈ s.file_system, f.name = g.name → f = g := by
  have hw := reachable_wf s h
  refine ⟨hw.names, fun f hf g hg he => ?_⟩
  have h1 := find_file_of_mem _ hw.names f hf
  have h2 := find_file_of_mem _ hw.names g hg
  rw [he, h2] at h1
  cases h1
  rfl

/-- C15, witness: `"a"` and `"b"` created, `"a"` opened a second time with Create,
`"b"` deleted and created again. -/
theorem file_names_unique_witness :
    ((ufs_open true (some "b") 5 (ufs_delete "b" (ufs_open true (some "a") 5
        (ufs_open true (some "b") 6 (ufs_open true (some "a") 6 ufs_init).1).1).1).1
        ).1.file_system.map File.name) = ["b", "a"] ∧
      (((ufs_open true (some "b") 5 (ufs_delete "b" (ufs_open true (some "a") 5
        (ufs_open true (some "b") 6 (ufs_open true (some "a") 6 ufs_init).1).1).1).1
        ).1.file_system.map File.name).Nodup ∧
      ∀ f ∈ (ufs_open true (some "b") 5 (ufs_delete "b" (ufs_open true (some "a") 5
        (ufs_open true (some "b") 6 (ufs_open true (some "a") 6 ufs_init).1).1).1).1
        ).1.file_system,
        ∀ g ∈ (ufs_open true (some "b") 5 (ufs_delete "b" (ufs_open true (some "a") 5
        (ufs_open true (some "b") 6 (ufs_open true (some "a") 6 ufs_init).1).1).1).1
        ).1.file_system, f.name = g.name → f = g) :=
  ⟨by decide,
    file_names_unique _
      (Reachable.step_open true (some "b") 5
        (Reachable.step_delete "b"
          (Reachable.step_open true (some "a") 5
            (Reachable.step_open true (some "b") 6
              (Reachable.step_open true (some "a") 6 Reachable.init)))))⟩

/-! ## Failing calls of `ufs_open` -/

/-- C20: when `ufs_open` is called with Create on a name that is not in the File Table
while all `MAX_FILE_DESCRIPTORS` slots are in use (`malloc` succeeding), it fails with
`EMFILE`, the descriptor table is unchanged, and the File Table has gained one empty
file of that name in front: `ufs_stat` on it then succeeds with size 0.  Every other
failing call of `ufs_open` (every failure that is not `EMFILE` on a name absent from the
table) leaves the whole state, File Table and descriptor table, as it was. -/
theorem ufs_open_failure_atomicity (flags : Int) (s : UFS) :
    (∀ (nm : String) (buf : Stat), find_file s.file_system nm = none →
        Int.land flags UFS_CREATE ≠ 0 →
        (∀ i, i < MAX_FILE_DESCRIPTORS → (s.fds i).used = true) →
        (ufs_open true (some nm) flags s).2 = .error .EMFILE ∧
          (ufs_open true (some nm) flags s).1.file_system
            = { addr := s.next_addr, name := nm, size := 0, data := [], blocks := [] }
                :: s.file_system ∧
          (ufs_open true (some nm) flags s).1.fds = s.fds ∧
          ufs_stat (some nm) (some buf) (ufs_open true (some nm) flags s).1
            = .ok { st_size := 0, st_mode := S_IFREG }) ∧
      (∀ (alloc : Bool) (name : Option String) (e : Errno),
        (ufs_open alloc name flags s).2 = .error e →
        (e = .EMFILE ∧ ∃ nm, name = some nm ∧ find_file s.file_system nm = none) ∨
          (ufs_open alloc name flags s).1 = s) := by
  constructor
  · intro nm buf hn hc hall
    have hf : ¬ Int.land flags ANY_FLAG = 0 := by
      rw [land_any_flag]
      rintro ⟨_, _, h3⟩
      exact hc h3
    have hnone : find_free_fd s.fds MAX_FILE_DESCRIPTORS 0 = none :=
      (find_free_fd_none s.fds MAX_FILE_DESCRIPTORS 0).2 (fun k _ hk => hall k (by omega))
    have heq : ufs_open true (some nm) flags s
        = ({ file_system :=
               { addr := s.next_addr, name := nm, size := 0, data := [], blocks := [] }
                 :: s.file_system
             fds := s.fds
             next_addr := s.next_addr + 1 }, .error .EMFILE) := by
      simp only [ufs_open, hf, if_false, hn, hc, ne_eq, not_false_eq_true, if_true]
      unfold open_slot
      rw [hnone]
    rw [heq]
    exact ⟨rfl, rfl, rfl, by simp [ufs_stat, find_file]⟩
  · intro alloc name e h
    cases name with
    | none => right; simp [ufs_open]
    | some nm =>
      by_cases hf : Int.land flags ANY_FLAG = 0
      · right; simp [ufs_open, hf]
      · cases hfind : find_file s.file_system nm with
        | none =>
          by_cases hc : Int.land flags UFS_CREATE ≠ 0
          · cases alloc
            · right; simp [ufs_open, hf, hfind, hc]
            · left
              simp only [ufs_open, hf, if_false, hfind, hc, ne_eq, not_false_eq_true,
                if_true] at h
              rcases open_slot_result
                ({ addr := s.next_addr, name := nm, size := 0, data := [], blocks := [] }
                  :: s.file_system) s.fds (s.next_addr + 1) s.next_addr flags
                with ⟨_, hr⟩ | ⟨n, _, hr⟩
              · rw [hr] at h
                simp only [Except.error.injEq] at h
                exact ⟨h.symm, nm, rfl, hfind⟩
              · rw [hr] at h
                simp at h
          · right; simp [ufs_open, hf, hfind, hc]
        | some f =>
          right
          simp only [ufs_open, hf, if_false, hfind] at h ⊢
          rcases open_slot_result s.file_system s.fds s.next_addr f.addr flags
            with ⟨_, hr⟩ | ⟨n, _, hr⟩
          · rw [hr]
          · rw [hr] at h
            simp at h

set_option maxRecDepth 100000 in
/-- C20, witness: with every slot in use and `"a"` the only file, opening the new name
`"b"` with Create fails with `EMFILE` and leaves a file `"b"` of size 0 behind; opening
`"a"` fails with `EMFILE` and changes nothing. -/
theorem ufs_open_failure_atomicity_witness :
    ((ufs_open true (some "b") UFS_CREATE all_slots_open).2 = .error .EMFILE ∧
        (ufs_open true (some "b") UFS_CREATE all_slots_open).1.file_system
          = { addr := all_slots_open.next_addr, name := "b", size := 0, data := []
              blocks := [] } :: all_slots_open.file_system ∧
        (ufs_open true (some "b") UFS_CREATE all_slots_open).1.fds = all_slots_open.fds ∧
        ufs_stat (some "b") (some { st_size := 7, st_mode := 7 })
            (ufs_open true (some "b") UFS_CREATE all_slots_open).1
          = .ok { st_size := 0, st_mode := S_IFREG }) ∧
      (ufs_open true (some "a") UFS_CREATE all_slots_open).2 = .error .EMFILE ∧
      (ufs_open true (some "a") UFS_CREATE all_slots_open).1 = all_slots_open :=
  ⟨(ufs_open_failure_atomicity UFS_CREATE all_slots_open).1 "b" _ (by decide) (by decide)
      (fun _ _ => rfl),
    by decide,
    ((ufs_open_failure_atomicity UFS_CREATE all_slots_open).2 true (some "a") .EMFILE
      (by decide)).resolve_left (by
        rintro ⟨_, nm, h1, h2⟩
        cases h1
        revert h2
        decide)⟩

/-! ## `ufs_close` leaves files and other descriptors alone -/

/-- What `ufs_read` returns depends on the File Table and on the slot of its descriptor
only. -/
theorem ufs_read_congr (fd : Int) (count : Nat) (s t : UFS)
    (hfs : t.file_system = s.file_system) (hfd : t.fds fd.toNat = s.fds fd.toNat) :
    (ufs_read fd count t).map Prod.snd = (ufs_read fd count s).map Prod.snd := by
  unfold ufs_read bad_fd
  rw [hfs, hfd]
  split
  · rfl
  · split
    · rfl
    · split
      · rfl
      · split
        · rfl
        · split <;> rfl

/-- What `ufs_write` returns depends on the File Table and on the slot of its
descriptor only. -/
theorem ufs_write_congr (alloc : Nat → Bool) (fd : Int) (buf : List Nat) (s t : UFS)
    (hfs : t.file_system = s.file_system) (hfd : t.fds fd.toNat = s.fds fd.toNat) :
    (ufs_write alloc fd buf t).map Prod.snd = (ufs_write alloc fd buf s).map Prod.snd := by
  unfold ufs_write bad_fd
  rw [hfs, hfd]
  split
  · rfl
  · split
    · rfl
    · split
      · rfl
      · split
        · rfl
        · split <;> rfl

/-- C14: a successful `ufs_close fd` clears the used flag of slot `fd` and changes
nothing else: the File Table is the same list of the same files, slot `fd` keeps its
file, offset and mode, and every other slot is as before.  So every name is found as
before and can be opened again (a slot is free), and `ufs_read` and `ufs_write` through
any other descriptor return what they return without the close. -/
theorem ufs_close_frame (fd : Int) (s : UFS) (h : (ufs_close fd s).2 = .ok 0) :
    (ufs_close fd s).1.file_system = s.file_system ∧
      (ufs_close fd s).1.fds fd.toNat = { s.fds fd.toNat with used := false } ∧
      (∀ j, j ≠ fd.toNat → (ufs_close fd s).1.fds j = s.fds j) ∧
      (∀ (a : Bool) (nm : String) (flags : Int), find_file s.file_system nm ≠ none →
        Int.land flags ANY_FLAG ≠ 0 →
        ∃ i : Nat, (ufs_open a (some nm) flags (ufs_close fd s).1).2 = .ok (i : Int)) ∧
      (∀ (fd2 : Int) (count : Nat), fd2 ≠ fd →
        (ufs_read fd2 count (ufs_close fd s).1).map Prod.snd
          = (ufs_read fd2 count s).map Prod.snd) ∧
      (∀ (alloc : Nat → Bool) (fd2 : Int) (buf : List Nat), fd2 ≠ fd →
        (ufs_write alloc fd2 buf (ufs_close fd s).1).map Prod.snd
          = (ufs_write alloc fd2 buf s).map Prod.snd) := by
  have hnb : bad_fd s fd = false := by
    by_contra hb
    simp only [Bool.not_eq_false] at hb
    simp [ufs_close, hb] at h
  have hbounds : ¬ (fd < 0 ∨ fd ≥ (MAX_FILE_DESCRIPTORS : Int) ∨
      (s.fds fd.toNat).used = false) := by
    rw [← bad_fd_iff, hnb]; simp
  have hfd0 : 0 ≤ fd := by omega
  have hfdlt : fd.toNat < MAX_FILE_DESCRIPTORS := by omega
  rw [ufs_close_good fd s hnb]
  have hother : ∀ fd2 : Int, fd2 ≠ fd → 0 ≤ fd2 →
      set_fd s.fds fd.toNat { s.fds fd.toNat with used := false } fd2.toNat
        = s.fds fd2.toNat := by
    intro fd2 hne h0
    have : fd2.toNat ≠ fd.toNat := by omega
    simp [set_fd, this]
  refine ⟨rfl, by simp [set_fd], fun j hj => by simp [set_fd, hj], ?_, ?_, ?_⟩
  · intro a nm flags hpres hflags
    cases hfind : find_file s.file_system nm with
    | none => exact absurd hfind hpres
    | some f =>
      simp only [ufs_open, hflags, if_false, hfind]
      rcases open_slot_result s.file_system
        (set_fd s.fds fd.toNat { s.fds fd.toNat with used := false }) s.next_addr f.addr
        flags with ⟨hn, _⟩ | ⟨n, _, hr⟩
      · have := (find_free_fd_none _ MAX_FILE_DESCRIPTORS 0).1 hn fd.toNat
          (Nat.zero_le _) (by omega)
        simp [set_fd] at this
      · exact ⟨n, by rw [hr]⟩
  · intro fd2 count hne
    by_cases h0 : 0 ≤ fd2
    · exact ufs_read_congr fd2 count s _ rfl (hother fd2 hne h0)
    · have hneg : fd2 < 0 := by omega
      rw [ufs_read_ebadf fd2 count s (Or.inl ((bad_fd_iff s fd2).2 (Or.inl hneg))),
        ufs_read_ebadf fd2 count _ (Or.inl ((bad_fd_iff _ fd2).2 (Or.inl hneg)))]
      rfl
  · intro alloc fd2 buf hne
    by_cases h0 : 0 ≤ fd2
    · exact ufs_write_congr alloc fd2 buf s _ rfl (hother fd2 hne h0)
    · have hneg : fd2 < 0 := by omega
      rw [ufs_write_ebadf alloc fd2 buf s (Or.inl ((bad_fd_iff s fd2).2 (Or.inl hneg))),
        ufs_write_ebadf alloc fd2 buf _ (Or.inl ((bad_fd_iff _ fd2).2 (Or.inl hneg)))]
      rfl

/-- C14, witness: `"a"` is opened twice and the first descriptor is closed. -/
theorem ufs_close_frame_witness :
    (ufs_close 0 (ufs_open true (some "a") 5 (ufs_open true (some "a") 6 ufs_init).1).1).2
        = .ok 0 ∧
      (ufs_close 0 (ufs_open true (some "a") 5
          (ufs_open true (some "a") 6 ufs_init).1).1).1.file_system
        = (ufs_open true (some "a") 5 (ufs_open true (some "a") 6 ufs_init).1).1.file_system ∧
      (ufs_read 1 3 (ufs_close 0 (ufs_open true (some "a") 5
          (ufs_open true (some "a") 6 ufs_init).1).1).1).map Prod.snd
        = (ufs_read 1 3 (ufs_open true (some "a") 5
            (ufs_open true (some "a") 6 ufs_init).1).1).map Prod.snd :=
  ⟨by decide,
    (ufs_close_frame 0 (ufs_open true (some "a") 5 (ufs_open true (some "a") 6 ufs_init).1).1
      (by decide)).1,
    (ufs_close_frame 0 (ufs_open true (some "a") 5 (ufs_open true (some "a") 6 ufs_init).1).1
      (by decide)).2.2.2.2.1 1 3 (by decide)⟩

/-! ## `ufs_write` when every allocation succeeds -/

theorem allocate_block_chain_one (alloc : Nat → Bool) (k : Nat) :
    allocate_block_chain alloc k 1 = if alloc k then [zero_block] else [] := by
  unfold allocate_block_chain
  cases h : alloc k <;> simp [allocate_blocks, h]

/-- When `malloc` succeeds, `current_block` is not `NULL` after the statement
`if (current_block == NULL) { ... }`. -/
theorem write_ensure_some (alloc : Nat → Bool) (ha : ∀ k, alloc k = true)
    (w : List Block × Option Nat × Nat) : ∃ i, (write_ensure alloc w).2.1 = some i := by
  unfold write_ensure
  cases h : w.2.1 with
  | some i => exact ⟨i, rfl⟩
  | none =>
    simp only [allocate_block_chain_one, ha, if_true]
    exact ⟨0, rfl⟩

/-- When every `malloc` succeeds, the loop of `ufs_write` copies the whole buffer: it
ends with `written = count`, without `ENOMEM`, and the offset advanced by the bytes that
were left to write. -/
theorem write_loop_all (alloc : Nat → Bool) (ha : ∀ k, alloc k = true) (buf : List Nat) :
    ∀ (fuel : Nat) (blocks : List Block) (offset written k : Nat) (r : WriteResult),
      written ≤ buf.length →
      write_loop alloc buf fuel blocks offset written k = some r →
      r.enomem = false ∧ r.written = buf.length ∧
        r.offset = offset + (buf.length - written) := by
  intro fuel
  induction fuel with
  | zero =>
    intro blocks offset written k r hw h
    unfold write_loop at h
    by_cases hlt : written < buf.length
    · rw [if_pos hlt] at h; cases h
    · rw [if_neg hlt] at h
      cases h
      exact ⟨rfl, by simp only; omega, by simp only; omega⟩
  | succ fuel ih =>
    intro blocks offset written k r hw h
    unfold write_loop at h
    by_cases hlt : written < buf.length
    · rw [if_pos hlt] at h
      simp only at h
      obtain ⟨i, hi⟩ := write_ensure_some alloc ha
        (write_walk alloc (offset / BLOCK_SIZE) blocks (head_ptr blocks) k)
      rw [hi] at h
      simp only at h
      have hmin : min (BLOCK_SIZE - offset % BLOCK_SIZE) (buf.length - written)
          ≤ buf.length - written := Nat.min_le_right _ _
      obtain ⟨h1, h2, h3⟩ := ih _ _ _ _ r (by omega) h
      exact ⟨h1, h2, by rw [h3]; omega⟩
    · rw [if_neg hlt] at h
      cases h
      exact ⟨rfl, by simp only; omega, by simp only; omega⟩

theorem deref_store_self (p : Nat) (g : File → File) (hg : ∀ x, (g x).addr = x.addr)
    (file : File) :
    ∀ fs : List File, deref fs p = some file → deref (store fs p g) p = some (g file) := by
  intro fs
  induction fs with
  | nil => intro h; simp [deref] at h
  | cons x rest ih =>
    intro h
    unfold deref store at ih ⊢
    unfold deref at h
    rw [List.map_cons]
    by_cases hx : x.addr = p
    · rw [List.find?_cons_of_pos _ (by simpa using hx)] at h
      cases h
      rw [if_pos hx, List.find?_cons_of_pos _ (by simpa [hg] using hx)]
    · rw [List.find?_cons_of_neg _ (by simpa using hx)] at h
      rw [if_neg hx, List.find?_cons_of_neg _ (by simpa using hx)]
      exact ih h

/-- C12: through a descriptor in use with Write access whose file is in the File Table,
and with every allocation succeeding, `ufs_write` of `count` bytes (any `count ≥ 0`)
returns exactly `count`, leaves the descriptor's offset advanced by exactly `count`, and
leaves the file with size `max (old size) (new offset)`, which is never smaller than the
old size. -/
theorem ufs_write_count_offset_size (alloc : Nat → Bool) (ha : ∀ k, alloc k = true)
    (fd : Int) (buf : List Nat) (s : UFS) (p : Nat) (file : File)
    (hb : bad_fd s fd = false) (hm : Int.land (s.fds fd.toNat).mode UFS_WRITE ≠ 0)
    (hp : (s.fds fd.toNat).file = some p) (hd : deref s.file_system p = some file) :
    ∃ s1 file1, ufs_write alloc fd buf s = some (s1, .ok (buf.length : Int)) ∧
      (s1.fds fd.toNat).offset = (s.fds fd.toNat).offset + buf.length ∧
      deref s1.file_system p = some file1 ∧
      file1.size = max file.size ((s.fds fd.toNat).offset + buf.length) ∧
      file.size ≤ file1.size := by
  obtain ⟨r, hr, heq⟩ := ufs_write_good alloc fd buf s p file hb hm hp hd
  obtain ⟨h1, h2, h3⟩ := write_loop_all alloc ha buf _ _ _ _ _ r (Nat.zero_le _) hr
  simp only [Nat.sub_zero] at h3
  rw [h1, h2] at heq
  simp only [Bool.false_eq_true, if_false] at heq
  have hst := deref_store_self p (fun f : File =>
    { f with blocks := r.blocks
             size := if r.offset > f.size then r.offset else f.size })
    (fun _ => rfl) file s.file_system hd
  refine ⟨_, _, heq, by simp [set_fd, h3], hst, ?_, ?_⟩
  · simp only [h3]
    by_cases hc : (s.fds fd.toNat).offset + buf.length > file.size
    · rw [if_pos hc]; omega
    · rw [if_neg hc]; omega
  · simp only
    by_cases hc : r.offset > file.size
    · rw [if_pos hc]; omega
    · rw [if_neg hc]

/-- C12, witness: 300 bytes written through descriptor 0, open with Create and Write on
the new file `"a"`. -/
theorem ufs_write_count_offset_size_witness :
    ∃ s1 file1,
      ufs_write (fun _ => true) 0 (List.replicate 300 7)
          (ufs_open true (some "a") 6 ufs_init).1
        = some (s1, .ok ((List.replicate 300 7).length : Int)) ∧
      (s1.fds (0 : Int).toNat).offset
        = ((ufs_open true (some "a") 6 ufs_init).1.fds (0 : Int).toNat).offset
            + (List.replicate 300 7).length ∧
      deref s1.file_system 1 = some file1 ∧
      file1.size
        = max (File.mk 1 "a" 0 [] []).size
            (((ufs_open true (some "a") 6 ufs_init).1.fds (0 : Int).toNat).offset
              + (List.replicate 300 7).length) ∧
      (File.mk 1 "a" 0 [] []).size ≤ file1.size :=
  ufs_write_count_offset_size (fun _ => true) (fun _ => rfl) 0 (List.replicate 300 7)
    (ufs_open true (some "a") 6 ufs_init).1 1 (File.mk 1 "a" 0 [] [])
    (by decide) (by decide) (by decide) (by decide)

/-! ## The shape of the block chains -/

theorem memcpy_length (dst : List Nat) (off : Nat) (src : List Nat)
    (h : off + src.length ≤ dst.length) : (memcpy dst off src).length = dst.length := by
  unfold memcpy
  simp only [List.length_append, List.length_take, List.length_drop]
  omega

theorem write_block_length (off : Nat) (src : List Nat) :
    ∀ (blocks : List Block) (i : Nat), (write_block blocks i off src).length = blocks.length := by
  intro blocks
  induction blocks with
  | nil => intro i; rfl
  | cons b rest ih =>
    intro i
    cases i with
    | zero => rfl
    | succ i => simp [write_block, ih]

theorem write_block_sized (off : Nat) (src : List Nat) (h : off + src.length ≤ BLOCK_SIZE) :
    ∀ (blocks : List Block) (i : Nat), blocks_sized blocks →
      blocks_sized (write_block blocks i off src) := by
  intro blocks
  induction blocks with
  | nil => intro i hs; exact hs
  | cons b rest ih =>
    intro i hs
    have hb : b.data.length = BLOCK_SIZE := hs b (List.mem_cons_self _ _)
    have hrest : blocks_sized rest := fun x hx => hs x (List.mem_cons_of_mem _ hx)
    cases i with
    | zero =>
      intro x hx
      simp only [write_block, List.mem_cons] at hx
      rcases hx with hx | hx
      · rw [hx]
        simp only
        rw [memcpy_length _ _ _ (by omega)]
        exact hb
      · exact hrest x hx
    | succ i =>
      intro x hx
      simp only [write_block, List.mem_cons] at hx
      rcases hx with hx | hx
      · rw [hx]; exact hb
      · exact ih i hrest x hx

theorem blocks_sized_allocate (alloc : Nat → Bool) (k : Nat) :
    blocks_sized (allocate_block_chain alloc k 1) ∧
      (allocate_block_chain alloc k 1).length ≤ 1 := by
  rw [allocate_block_chain_one]
  cases alloc k
  · exact ⟨fun b hb => (by cases hb), by simp⟩
  · refine ⟨fun b hb => ?_, by simp⟩
    simp only [if_true, List.mem_singleton] at hb
    rw [hb]
    simp [zero_block]

/-- The loop over `block_index` keeps the chain it was given or replaces it by a chain
of at most one new block. -/
theorem write_walk_shape (alloc : Nat → Bool) :
    ∀ (n : Nat) (blocks : List Block) (cur : Option Nat) (k : Nat),
      (write_walk alloc n blocks cur k).1 = blocks ∨
        (blocks_sized (write_walk alloc n blocks cur k).1 ∧
          (write_walk alloc n blocks cur k).1.length ≤ 1) := by
  intro n
  induction n with
  | zero => intro blocks cur k; exact Or.inl rfl
  | succ n ih =>
    intro blocks cur k
    unfold write_walk
    cases cur with
    | some i => exact ih _ _ _
    | none =>
      simp only
      rcases ih (allocate_block_chain alloc k 1)
        (head_ptr (allocate_block_chain alloc k 1)) (k + 1) with h | h
      · right
        rw [h]
        exact blocks_sized_allocate alloc k
      · exact Or.inr h

theorem write_ensure_shape (alloc : Nat → Bool) (w : List Block × Option Nat × Nat) :
    (write_ensure alloc w).1 = w.1 ∨
      (blocks_sized (write_ensure alloc w).1 ∧ (write_ensure alloc w).1.length ≤ 1) := by
  unfold write_ensure
  cases w.2.1 with
  | some i => exact Or.inl rfl
  | none => exact Or.inr (blocks_sized_allocate alloc _)

/-- The loop of `ufs_write` keeps a chain of blocks of `BLOCK_SIZE` bytes one, and a
chain of at most one block a chain of at most one block. -/
theorem write_loop_shape (alloc : Nat → Bool) (buf : List Nat) :
    ∀ (fuel : Nat) (blocks : List Block) (offset written k : Nat) (r : WriteResult),
      blocks_sized blocks → blocks.length ≤ 1 →
      write_loop alloc buf fuel blocks offset written k = some r →
      blocks_sized r.blocks ∧ r.blocks.length ≤ 1 := by
  intro fuel
  induction fuel with
  | zero =>
    intro blocks offset written k r hs hl h
    unfold write_loop at h
    by_cases hlt : written < buf.length
    · rw [if_pos hlt] at h; cases h
    · rw [if_neg hlt] at h
      cases h
      exact ⟨hs, hl⟩
  | succ fuel ih =>
    intro blocks offset written k r hs hl h
    unfold write_loop at h
    by_cases hlt : written < buf.length
    · rw [if_pos hlt] at h
      simp only at h
      have hshape : blocks_sized (write_ensure alloc
            (write_walk alloc (offset / BLOCK_SIZE) blocks (head_ptr blocks) k)).1 ∧
          (write_ensure alloc
            (write_walk alloc (offset / BLOCK_SIZE) blocks (head_ptr blocks) k)).1.length
            ≤ 1 := by
        rcases write_ensure_shape alloc
          (write_walk alloc (offset / BLOCK_SIZE) blocks (head_ptr blocks) k) with h1 | h1
        · rw [h1]
          rcases write_walk_shape alloc (offset / BLOCK_SIZE) blocks (head_ptr blocks) k
            with h2 | h2
          · rw [h2]; exact ⟨hs, hl⟩
          · exact h2
        · exact h1
      cases hc : (write_ensure alloc
          (write_walk alloc (offset / BLOCK_SIZE) blocks (head_ptr blocks) k)).2.1 with
      | none =>
        rw [hc] at h
        simp only at h
        cases h
        exact hshape
      | some i =>
        rw [hc] at h
        simp only at h
        have h256 : offset % BLOCK_SIZE < BLOCK_SIZE := Nat.mod_lt _ (by decide)
        refine ih _ _ _ _ r (write_block_sized _ _ ?_ _ _ hshape.1)
          (by rw [write_block_length]; exact hshape.2) h
        simp only [List.length_take, List.length_drop]
        omega
    · rw [if_neg hlt] at h
      cases h
      exact ⟨hs, hl⟩

theorem ufs_close_file_system (fd : Int) (s : UFS) :
    (ufs_close fd s).1.file_system = s.file_system := by
  unfold ufs_close
  split <;> rfl

/-- In every reachable state every file's chain has at most one block, and every block
holds `BLOCK_SIZE` bytes. -/
theorem reachable_chains (s : UFS) (h : Reachable s) :
    ∀ f ∈ s.file_system, blocks_sized f.blocks ∧ f.blocks.length ≤ 1 := by
  induction h with
  | init => intro f hf; cases hf
  | step_open alloc name flags _ ih =>
    rcases ufs_open_table alloc name flags _ with ⟨h1, _⟩ | ⟨nm, _, _, h1, _⟩
    · rw [h1]; exact ih
    · rw [h1]
      intro f hf
      rcases List.mem_cons.1 hf with h | h
      · subst h
        exact ⟨fun b hb => (by cases hb), by simp⟩
      · exact ih f h
  | step_write alloc fd buf _ hstep ih =>
    rcases ufs_write_inv _ _ _ _ _ _ hstep with ⟨_, h1, _⟩ |
      ⟨_, _, p, file, res, _, hd, hres, h1, _⟩
    · rw [h1]; exact ih
    · have hfile := ih file (deref_mem _ _ _ hd).1
      have hnew := write_loop_shape alloc buf _ _ _ _ _ res hfile.1 hfile.2 hres
      rw [h1]
      intro f hf
      simp only [store, List.mem_map] at hf
      obtain ⟨f0, hf0, he⟩ := hf
      by_cases hp : f0.addr = p
      · rw [if_pos hp] at he
        rw [← he]
        exact hnew
      · rw [if_neg hp] at he
        rw [← he]
        exact ih f0 hf0
  | step_read fd count _ hstep ih =>
    rw [(ufs_read_table _ _ _ _ _ hstep).1]
    exact ih
  | step_close fd _ ih =>
    rw [ufs_close_file_system]
    exact ih
  | step_delete name _ ih =>
    unfold ufs_delete
    split
    · rename_i fs hd
      intro f hf
      exact ih f ((delete_file_sublist name _ _ hd).subset hf)
    · exact ih
  | step_resize alloc name new_size _ ih =>
    obtain ⟨_, h | ⟨p, g, hg, hfs⟩⟩ := ufs_resize_table alloc name new_size _
    · rw [h]; exact ih
    · rw [hfs]
      intro f hf
      simp only [store, List.mem_map] at hf
      obtain ⟨f0, hf0, he⟩ := hf
      by_cases hp : f0.addr = p
      · rw [if_pos hp] at he
        rw [← he, (hg f0).2.2]
        exact ih f0 hf0
      · rw [if_neg hp] at he
        rw [← he]
        exact ih f0 hf0

/-- On a chain of at most one block, the loop of `ufs_read` started at an offset of
`BLOCK_SIZE` or more copies nothing. -/
theorem read_loop_beyond_first_block (blocks : List Block) (hl : blocks.length ≤ 1)
    (count fuel offset : Nat) (ho : BLOCK_SIZE ≤ offset) (r : ReadResult)
    (h : read_loop blocks count fuel offset 0 [] = some r) :
    r.read = 0 ∧ r.out = [] ∧ r.offset = offset := by
  have hq : 1 ≤ offset / BLOCK_SIZE := (Nat.le_div_iff_mul_le (by decide)).2 (by omega)
  have hwalk : read_walk (offset / BLOCK_SIZE) blocks = none ∨
      read_walk (offset / BLOCK_SIZE) blocks = some [] := by
    obtain ⟨q, hq2⟩ : ∃ q, offset / BLOCK_SIZE = q + 1 := ⟨offset / BLOCK_SIZE - 1, by omega⟩
    rw [hq2]
    cases blocks with
    | nil => left; rfl
    | cons b rest =>
      cases rest with
      | nil =>
        cases q with
        | zero => right; rfl
        | succ q => left; rfl
      | cons c rest2 => simp at hl
  cases fuel with
  | zero =>
    unfold read_loop at h
    split at h
    · cases h
    · cases h; exact ⟨rfl, rfl, rfl⟩
  | succ fuel =>
    unfold read_loop at h
    split at h
    · rcases hwalk with hw | hw <;> rw [hw] at h <;> cases h <;> exact ⟨rfl, rfl, rfl⟩
    · cases h; exact ⟨rfl, rfl, rfl⟩

/-- C19: in every state reachable from the empty file system by calls with defined
behaviour (none uses a descriptor whose file was deleted), every file's block chain has
at most one block.  Consequently a `ufs_read` through a descriptor whose offset is
`BLOCK_SIZE` or more, when it returns, returns 0 bytes. -/
theorem chain_at_most_one_block (s : UFS) (h : Reachable s) :
    (∀ f ∈ s.file_system, f.blocks.length ≤ 1) ∧
      ∀ (fd : Int) (count : Nat) (s1 : UFS) (n : Nat) (bytes : List Nat),
        BLOCK_SIZE ≤ (s.fds fd.toNat).offset →
        ufs_read fd count s = some (s1, .ok (n, bytes)) → n = 0 ∧ bytes = [] := by
  refine ⟨fun f hf => (reachable_chains s h f hf).2, ?_⟩
  intro fd count s1 n bytes ho hr
  rcases ufs_read_inv fd count s s1 _ hr with ⟨_, _, he⟩ | ⟨_, _, h2⟩
  · cases he
  · rcases h2 with ⟨_, _, he⟩ | ⟨p, file, res, _, hd, hres, _, he⟩
    · simp only [Except.ok.injEq, Prod.mk.injEq] at he
      exact ⟨he.1, he.2⟩
    · have hl := (reachable_chains s h file (deref_mem _ _ _ hd).1).2
      obtain ⟨h1, h2, _⟩ := read_loop_beyond_first_block file.blocks hl count count _ ho res hres
      simp only [Except.ok.injEq, Prod.mk.injEq] at he
      exact ⟨by rw [he.1, h1], by rw [he.2, h2]⟩

/-! ## What `ufs_read` returns -/

theorem read_walk_eq :
    ∀ (n : Nat) (blocks : List Block),
      read_walk n blocks = if n ≤ blocks.length then some (blocks.drop n) else none := by
  intro n
  induction n with
  | zero => intro blocks; simp [read_walk]
  | succ n ih =>
    intro blocks
    cases blocks with
    | nil => simp [read_walk]
    | cons b rest => simp [read_walk, ih]

theorem chain_bytes_length :
    ∀ blocks : List Block, blocks_sized blocks →
      (chain_bytes blocks).length = BLOCK_SIZE * blocks.length := by
  intro blocks
  induction blocks with
  | nil => intro _; rfl
  | cons b rest ih =>
    intro hs
    have hb : b.data.length = BLOCK_SIZE := hs b (List.mem_cons_self _ _)
    have hrest := ih (fun x hx => hs x (List.mem_cons_of_mem _ hx))
    simp only [chain_bytes, List.length_append, List.length_cons, hb, hrest]
    rw [Nat.mul_succ]
    omega

/-- The bytes of the chain from block `n` on are the bytes of the chain from position
`BLOCK_SIZE * n` on. -/
theorem chain_bytes_drop :
    ∀ (blocks : List Block) (n : Nat), blocks_sized blocks →
      chain_bytes (blocks.drop n) = (chain_bytes blocks).drop (BLOCK_SIZE * n) := by
  intro blocks
  induction blocks with
  | nil => intro n _; simp [chain_bytes]
  | cons b rest ih =>
    intro n hs
    have hb : b.data.length = BLOCK_SIZE := hs b (List.mem_cons_self _ _)
    have hrest : blocks_sized rest := fun x hx => hs x (List.mem_cons_of_mem _ hx)
    cases n with
    | zero => simp
    | succ n =>
      simp only [List.drop_succ_cons, chain_bytes]
      have hnil : b.data.drop (BLOCK_SIZE * (n + 1)) = [] :=
        List.drop_of_length_le (by rw [hb, Nat.mul_succ]; omega)
      have hsub : BLOCK_SIZE * (n + 1) - b.data.length = BLOCK_SIZE * n := by
        rw [hb, Nat.mul_succ]; omega
      rw [ih n hrest, List.drop_append_eq_append_drop, hnil, List.nil_append, hsub]

/-- The loop of `ufs_read` copies the bytes of the chain from the offset on, as many as
are asked for and are there, and advances `read` and the offset by their number. -/
theorem read_loop_spec (blocks : List Block) (hs : blocks_sized blocks) (count : Nat) :
    ∀ (fuel offset read : Nat) (out : List Nat) (r : ReadResult), read ≤ count →
      read_loop blocks count fuel offset read out = some r →
      r.out = out ++ ((chain_bytes blocks).drop offset).take (count - read) ∧
        r.read = read + (((chain_bytes blocks).drop offset).take (count - read)).length ∧
        r.offset
          = offset + (((chain_bytes blocks).drop offset).take (count - read)).length := by
  intro fuel
  induction fuel with
  | zero =>
    intro offset read out r hle h
    unfold read_loop at h
    by_cases hlt : read < count
    · rw [if_pos hlt] at h; cases h
    · rw [if_neg hlt] at h
      cases h
      have : count - read = 0 := by omega
      simp [this]
  | succ fuel ih =>
    intro offset read out r hle h
    unfold read_loop at h
    by_cases hlt : read < count
    · rw [if_pos hlt, read_walk_eq] at h
      have hlen := chain_bytes_length blocks hs
      have hdm := Nat.div_add_mod offset BLOCK_SIZE
      have hm : offset % BLOCK_SIZE < BLOCK_SIZE := Nat.mod_lt _ (by decide)
      have hend : blocks.drop (offset / BLOCK_SIZE) = [] →
          (chain_bytes blocks).drop offset = [] := by
        intro hnil
        rw [List.drop_eq_nil_iff] at hnil ⊢
        rw [hlen]
        have := Nat.mul_le_mul_left BLOCK_SIZE hnil
        omega
      by_cases hq : offset / BLOCK_SIZE ≤ blocks.length
      · rw [if_pos hq] at h
        cases hdrop : blocks.drop (offset / BLOCK_SIZE) with
        | nil =>
          rw [hdrop] at h
          simp only at h
          cases h
          simp [hend hdrop]
        | cons b rest =>
          rw [hdrop] at h
          simp only at h
          have hbmem : b ∈ blocks :=
            List.mem_of_mem_drop (by rw [hdrop]; exact List.mem_cons_self _ _)
          have hb : b.data.length = BLOCK_SIZE := hs b hbmem
          have hD : (chain_bytes blocks).drop offset
              = b.data.drop (offset % BLOCK_SIZE) ++ chain_bytes rest := by
            have h1 := chain_bytes_drop blocks (offset / BLOCK_SIZE) hs
            rw [hdrop] at h1
            simp only [chain_bytes] at h1
            have h2 : (chain_bytes blocks).drop offset
                = ((chain_bytes blocks).drop (BLOCK_SIZE * (offset / BLOCK_SIZE))).drop
                    (offset % BLOCK_SIZE) := by
              rw [List.drop_drop, hdm]
            rw [h2, ← h1, List.drop_append_of_le_length (by omega)]
          generalize ht : min (BLOCK_SIZE - offset % BLOCK_SIZE) (count - read) = t at h
          have ht1 : t ≤ BLOCK_SIZE - offset % BLOCK_SIZE := by
            rw [← ht]; exact Nat.min_le_left _ _
          have ht2 : t ≤ count - read := by
            rw [← ht]; exact Nat.min_le_right _ _
          obtain ⟨r1, r2, r3⟩ := ih _ _ _ r (by omega) h
          have hsplit : ((chain_bytes blocks).drop offset).take (count - read)
              = (b.data.drop (offset % BLOCK_SIZE)).take t
                ++ ((chain_bytes blocks).drop (offset + t)).take (count - (read + t)) := by
            have hc : count - read = t + (count - (read + t)) := by omega
            rw [hc, List.take_add, List.drop_drop]
            congr 1
            rw [hD, List.take_append_of_le_length (by rw [List.length_drop, hb]; exact ht1)]
          have hlt2 : ((b.data.drop (offset % BLOCK_SIZE)).take t).length = t := by
            rw [List.length_take, List.length_drop, hb]
            omega
          rw [hsplit]
          refine ⟨by rw [r1, List.append_assoc], ?_, ?_⟩
          · rw [r2, List.length_append, hlt2]; omega
          · rw [r3, List.length_append, hlt2]; omega
      · rw [if_neg hq] at h
        simp only at h
        cases h
        have hnil : blocks.drop (offset / BLOCK_SIZE) = [] :=
          List.drop_of_length_le (by omega)
        simp [hend hnil]
    · rw [if_neg hlt] at h
      cases h
      have : count - read = 0 := by omega
      simp [this]

/-- The function `ufs_read` through a descriptor in use, with Read access, whose file is
in the table: the call returns the bytes of the chain from the offset on, `count` of
them or as many as the chain has, and moves the offset of the slot past them. -/
theorem ufs_read_spec (fd : Int) (count : Nat) (s : UFS) (p : Nat) (file : File)
    (hb : bad_fd s fd = false) (hm : Int.land (s.fds fd.toNat).mode UFS_READ ≠ 0)
    (hp : (s.fds fd.toNat).file = some p) (hd : deref s.file_system p = some file)
    (hs : blocks_sized file.blocks) :
    ufs_read fd count s
      = some ({ s with
                fds := set_fd s.fds fd.toNat
                  { s.fds fd.toNat with
                    offset := (s.fds fd.toNat).offset
                      + min count (BLOCK_SIZE * file.blocks.length
                          - (s.fds fd.toNat).offset) } },
              .ok (min count (BLOCK_SIZE * file.blocks.length - (s.fds fd.toNat).offset),
                ((chain_bytes file.blocks).drop (s.fds fd.toNat).offset).take count)) := by
  obtain ⟨r, hr, heq⟩ := ufs_read_good fd count s p file hb hm hp hd
  obtain ⟨h1, h2, h3⟩ := read_loop_spec file.blocks hs count _ _ _ _ r (Nat.zero_le _) hr
  have hlen : (((chain_bytes file.blocks).drop (s.fds fd.toNat).offset).take
      (count - 0)).length
      = min count (BLOCK_SIZE * file.blocks.length - (s.fds fd.toNat).offset) := by
    rw [List.length_take, List.length_drop, chain_bytes_length _ hs, Nat.sub_zero]
  rw [hlen] at h2 h3
  rw [heq, h1, h2, h3]
  simp

/-- C13: through a descriptor in use with Read access, at offset `o`, on a file of the
File Table whose chain has `k` blocks (each of `BLOCK_SIZE` bytes), `ufs_read` of
`count` bytes is not an error: it returns `n = min count (k * BLOCK_SIZE - o)` (0 when
`o` is beyond the chain) and the `n` bytes of the chain at the positions `o`, ...,
`o + n - 1`.  It advances the offset of that slot by `n` and changes nothing else: the
File Table (files, sizes, blocks) is as before, slot `fd` keeps its file, mode and used
flag, and every other slot is as before. -/
theorem ufs_read_returns_chain_bytes (fd : Int) (count : Nat) (s : UFS) (p : Nat)
    (file : File) (hb : bad_fd s fd = false)
    (hm : Int.land (s.fds fd.toNat).mode UFS_READ ≠ 0)
    (hp : (s.fds fd.toNat).file = some p) (hd : deref s.file_system p = some file)
    (hs : blocks_sized file.blocks) :
    ∃ s1 bytes,
      ufs_read fd count s
        = some (s1, .ok (min count (BLOCK_SIZE * file.blocks.length
            - (s.fds fd.toNat).offset), bytes)) ∧
      bytes = ((chain_bytes file.blocks).drop (s.fds fd.toNat).offset).take
        (min count (BLOCK_SIZE * file.blocks.length - (s.fds fd.toNat).offset)) ∧
      bytes.length = min count (BLOCK_SIZE * file.blocks.length - (s.fds fd.toNat).offset) ∧
      s1.fds fd.toNat
        = { s.fds fd.toNat with
            offset := (s.fds fd.toNat).offset
              + min count (BLOCK_SIZE * file.blocks.length - (s.fds fd.toNat).offset) } ∧
      (∀ j, j ≠ fd.toNat → s1.fds j = s.fds j) ∧
      s1.file_system = s.file_system ∧ s1.next_addr = s.next_addr := by
  have hlen : (chain_bytes file.blocks).length = BLOCK_SIZE * file.blocks.length :=
    chain_bytes_length _ hs
  refine ⟨_, _, ufs_read_spec fd count s p file hb hm hp hd hs, ?_, ?_, by simp [set_fd],
    fun j hj => by simp [set_fd, hj], rfl, rfl⟩
  · rw [List.take_eq_take, List.length_drop, hlen]
    omega
  · rw [List.length_take, List.length_drop, hlen]

set_option maxRecDepth 100000 in
/-- C13, witness: after three bytes were written to the new file `"a"` through
descriptor 0 (Read and Write), reading 5 bytes through it, at offset 3. -/
theorem ufs_read_returns_chain_bytes_witness :
    ∃ s1 bytes,
      ufs_read 0 5 after_write
        = some (s1, .ok (min 5 (BLOCK_SIZE * [Block.mk (1 :: 2 :: 3 :: List.replicate 253 0)].length
            - (after_write.fds (0 : Int).toNat).offset), bytes)) ∧
      bytes = ((chain_bytes [Block.mk (1 :: 2 :: 3 :: List.replicate 253 0)]).drop
          (after_write.fds (0 : Int).toNat).offset).take
        (min 5 (BLOCK_SIZE * [Block.mk (1 :: 2 :: 3 :: List.replicate 253 0)].length
          - (after_write.fds (0 : Int).toNat).offset)) ∧
      bytes.length = min 5 (BLOCK_SIZE * [Block.mk (1 :: 2 :: 3 :: List.replicate 253 0)].length
        - (after_write.fds (0 : Int).toNat).offset) ∧
      s1.fds (0 : Int).toNat
        = { after_write.fds (0 : Int).toNat with
            offset := (after_write.fds (0 : Int).toNat).offset
              + min 5 (BLOCK_SIZE * [Block.mk (1 :: 2 :: 3 :: List.replicate 253 0)].length
                  - (after_write.fds (0 : Int).toNat).offset) } ∧
      (∀ j, j ≠ (0 : Int).toNat → s1.fds j = after_write.fds j) ∧
      s1.file_system = after_write.file_system ∧ s1.next_addr = after_write.next_addr :=
  ufs_read_returns_chain_bytes 0 5 after_write 1
    (File.mk 1 "a" 3 [] [Block.mk (1 :: 2 :: 3 :: List.replicate 253 0)])
    (by decide) (by decide) (by decide) (by decide)
    (by unfold blocks_sized; decide)

/-- C17 (amended): reads stop at the end of the block chain, not at the logical size.
Through a descriptor in use with Read access, at offset `o`, on a file of the File Table
whose chain has `k` blocks, `ufs_read` returns at most `max 0 (k * BLOCK_SIZE - o)`
bytes whatever `count` is requested, and exactly that many when `count` is at least
that: the size of the file plays no part. -/
theorem ufs_read_bounded_by_chain (fd : Int) (count : Nat) (s : UFS) (p : Nat)
    (file : File) (hb : bad_fd s fd = false)
    (hm : Int.land (s.fds fd.toNat).mode UFS_READ ≠ 0)
    (hp : (s.fds fd.toNat).file = some p) (hd : deref s.file_system p = some file)
    (hs : blocks_sized file.blocks) :
    ∃ s1 n bytes, ufs_read fd count s = some (s1, .ok (n, bytes)) ∧
      n ≤ BLOCK_SIZE * file.blocks.length - (s.fds fd.toNat).offset ∧ n ≤ count ∧
      bytes.length = n ∧
      (BLOCK_SIZE * file.blocks.length - (s.fds fd.toNat).offset ≤ count →
        n = BLOCK_SIZE * file.blocks.length - (s.fds fd.toNat).offset) := by
  refine ⟨_, _, _, ufs_read_spec fd count s p file hb hm hp hd hs, Nat.min_le_right _ _,
    Nat.min_le_left _ _, ?_, fun h => Nat.min_eq_right h⟩
  rw [List.length_take, List.length_drop, chain_bytes_length _ hs]

set_option maxRecDepth 100000 in
/-- C17, witness: after three bytes were written to the new file `"a"` through
descriptor 0 (Read and Write), reading 300 bytes through it, at offset 3, returns the
253 bytes that are left in the chain. -/
theorem ufs_read_bounded_by_chain_witness :
    ∃ s1 n bytes, ufs_read 0 300 after_write = some (s1, .ok (n, bytes)) ∧
      n ≤ BLOCK_SIZE * [Block.mk (1 :: 2 :: 3 :: List.replicate 253 0)].length
          - (after_write.fds (0 : Int).toNat).offset ∧ n ≤ 300 ∧
      bytes.length = n ∧
      (BLOCK_SIZE * [Block.mk (1 :: 2 :: 3 :: List.replicate 253 0)].length
          - (after_write.fds (0 : Int).toNat).offset ≤ 300 →
        n = BLOCK_SIZE * [Block.mk (1 :: 2 :: 3 :: List.replicate 253 0)].length
          - (after_write.fds (0 : Int).toNat).offset) :=
  ufs_read_bounded_by_chain 0 300 after_write 1
    (File.mk 1 "a" 3 [] [Block.mk (1 :: 2 :: 3 :: List.replicate 253 0)])
    (by decide) (by decide) (by decide) (by decide)
    (by unfold blocks_sized; decide)

/-- C17, counterexample: the file `"a"` holds the five bytes `1, 2, 3, 4, 5` and has
size 5; a read of 10 bytes at offset 0 returns 10 bytes, the five written and five
zeros, more than `max 0 (5 - 0)`.  After `ufs_resize` to 2 bytes the size is 2, and a
read of 5 bytes at offset 0 still returns `1, 2, 3, 4, 5`. -/
theorem read_beyond_logical_size :
    (write_file "a" [1, 2, 3, 4, 5] ufs_init).map (fun x => x.1.file_system.map File.size)
        = some [5] ∧
      ((write_file "a" [1, 2, 3, 4, 5] ufs_init).bind
          (fun x => read_file "a" 10 x.1)).map (fun x => x.2)
        = some (.ok (10, [1, 2, 3, 4, 5, 0, 0, 0, 0, 0])) ∧
      (write_file "a" [1, 2, 3, 4, 5] ufs_init).map
          (fun x => (ufs_resize true "a" 2 x.1).1.file_system.map File.size)
        = some [2] ∧
      ((write_file "a" [1, 2, 3, 4, 5] ufs_init).bind
          (fun x => read_file "a" 5 (ufs_resize true "a" 2 x.1).1)).map (fun x => x.2)
        = some (.ok (5, [1, 2, 3, 4, 5])) := by
  decide

/-! ## Where the chain falls short of the size, and what a second write leaves -/

set_option maxRecDepth 100000 in
/-- C16, at the failing inputs.  After 257 bytes were written with one `ufs_write` call
to the new file `"a"`, the file has size 257 and a chain of one block: `ceil(257 / 256)`
is 2.  After `ufs_resize` of a new file to 300 bytes, the file has size 300 and no
block. -/
theorem size_exceeds_capacity :
    (write_file "a" (List.replicate 256 65 ++ [66]) ufs_init).map
          (fun x => x.1.file_system.map
            (fun f => (f.size, f.blocks.length, size_within_capacity f)))
        = some [(257, 1, false)] ∧
      (ufs_resize true "a" 300
          (ufs_open true (some "a") UFS_CREATE ufs_init).1).1.file_system.map
            (fun f => (f.size, f.blocks.length, size_within_capacity f))
        = [(300, 0, false)] := by
  decide

set_option maxRecDepth 100000 in
/-- C18, at the failing input: the new file `"a"` is opened with Create and Write; a
first `ufs_write` of 256 bytes `65` returns 256 and leaves the offset at 256 and the
byte `65` at positions 0 and 1 of the chain; a second `ufs_write`, of the one byte `66`
through the same descriptor, returns 1, its range being the position 256 alone, and
leaves a chain of one block with `66` at position 0 and `0` at position 1.  A read of
256 bytes at offset 0 through a new descriptor then returns `66` and 255 zeros. -/
theorem second_write_replaces_chain :
    (ufs_write (fun _ => true) 0 (List.replicate 256 65)
        (ufs_open true (some "a") 6 ufs_init).1).map (fun x => x.2) = some (.ok 256) ∧
      (ufs_write (fun _ => true) 0 (List.replicate 256 65)
        (ufs_open true (some "a") 6 ufs_init).1).map
          (fun x => ((x.1.fds 0).offset,
            x.1.file_system.map (fun f => (f.blocks.length, (chain_bytes f.blocks).take 2))))
        = some (256, [(1, [65, 65])]) ∧
      ((ufs_write (fun _ => true) 0 (List.replicate 256 65)
          (ufs_open true (some "a") 6 ufs_init).1).bind
          (fun x => ufs_write (fun _ => true) 0 [66] x.1)).map (fun x => x.2)
        = some (.ok 1) ∧
      ((ufs_write (fun _ => true) 0 (List.replicate 256 65)
          (ufs_open true (some "a") 6 ufs_init).1).bind
          (fun x => ufs_write (fun _ => true) 0 [66] x.1)).map
            (fun x => ((x.1.fds 0).offset,
              x.1.file_system.map
                (fun f => (f.blocks.length, (chain_bytes f.blocks).take 2))))
        = some (257, [(1, [66, 0])]) ∧
      (((ufs_write (fun _ => true) 0 (List.replicate 256 65)
          (ufs_open true (some "a") 6 ufs_init).1).bind
          (fun x => ufs_write (fun _ => true) 0 [66] x.1)).bind
          (fun x => read_file "a" 256 x.1)).map (fun x => x.2)
        = some (.ok (256, 66 :: List.replicate 255 0)) := by
  decide

/-- C19, witness: the state after 300 bytes were written with one `ufs_write` call to
the new file `"a"`. -/
theorem chain_at_most_one_block_witness :
    ∃ s1 r,
      ufs_write (fun _ => true) 0 (List.replicate 300 7)
          (ufs_open true (some "a") 7 ufs_init).1 = some (s1, r) ∧
      Reachable s1 ∧
      (∀ f ∈ s1.file_system, f.blocks.length ≤ 1) ∧
      ∀ (fd : Int) (count : Nat) (s2 : UFS) (n : Nat) (bytes : List Nat),
        BLOCK_SIZE ≤ (s1.fds fd.toNat).offset →
        ufs_read fd count s1 = some (s2, .ok (n, bytes)) → n = 0 ∧ bytes = [] := by
  obtain ⟨r, _, heq⟩ := ufs_write_good (fun _ => true) 0 (List.replicate 300 7)
    (ufs_open true (some "a") 7 ufs_init).1 1 (File.mk 1 "a" 0 [] [])
    (by decide) (by decide) (by decide) (by decide)
  have hreach := Reachable.step_write (fun _ => true) 0 (List.replicate 300 7)
    (Reachable.step_open true (some "a") 7 Reachable.init) heq
  exact ⟨_, _, heq, hreach, chain_at_most_one_block _ hreach⟩

end UserFS
